import Mathlib

/-!
# Verification of the Data Ingestion API system

A shallow embedding, in Lean 4, of the scheduling core of the
data-ingestion service (`src/data-ingestion-api/index.js`):

* the custom `PriorityQueue` class (an array kept ordered by
  `push` + stable `Array.prototype.sort(comparator)`, drained by `shift`);
* the queue comparator (priority rank `HIGH=0, MEDIUM=1, LOW=2`,
  then `created_time`);
* the in-memory stores `ingestionJobs` and `batchStatuses` (JS `Map`s,
  modelled as association lists with `Map.get` / `Map.set` semantics);
* `updateIngestionStatus` (the status aggregator);
* the `POST /ingest` handler (validation, batching into groups of 3,
  record creation, enqueueing, single-flight trigger);
* the rate-limited dispatcher loop `processBatches`.

`uuidv4()` is modelled by drawing fresh identifiers from a counter kept in
the state (`nextId`); `Date.now()` values and the durations of the awaited
external calls are passed in as explicit parameters.  JavaScript's
`Array.prototype.sort` is guaranteed stable, so `push` + `sort(c)` is
embedded as a stable merge sort with the boolean order `c a b ≤ 0`.
-/

/-- The three priority levels accepted by the API. -/
inductive Priority where
  | HIGH
  | MEDIUM
  | LOW
deriving DecidableEq, Repr

open Priority

/-- `const priorityOrder = { HIGH: 0, MEDIUM: 1, LOW: 2 }` (line 35). -/
def priorityOrder : Priority → Int
  | HIGH => 0
  | MEDIUM => 1
  | LOW => 2

/-- Batch and job statuses: `'yet_to_start' | 'triggered' | 'completed'`. -/
inductive Status where
  | yet_to_start
  | triggered
  | completed
deriving DecidableEq, Repr

open Status

/-- An entry placed on the scheduler queue by the ingest handler (line 118):
`{ batch_id, ids: batch_ids, priority, created_time, ingestion_id }`. -/
structure QueueEntry where
  batch_id : Nat
  ids : List Int
  priority : Priority
  created_time : Nat
  ingestion_id : Nat
deriving DecidableEq, Repr

/-- The comparator passed to the queue (lines 34–40): rank difference when
the priority ranks differ, else the `created_time` difference. -/
def queueComparator (a b : QueueEntry) : Int :=
  if priorityOrder a.priority ≠ priorityOrder b.priority then
    priorityOrder a.priority - priorityOrder b.priority
  else
    (a.created_time : Int) - (b.created_time : Int)

/-- The custom `PriorityQueue` class (lines 9–27): a JS array of items.
The comparator is supplied to each operation that needs it, mirroring the
constructor argument. -/
structure PQueue (α : Type) where
  items : List α
deriving DecidableEq, Repr

/-- `enqueue(item)` (lines 15–18): `items.push(item); items.sort(comparator)`.
JS `Array.prototype.sort` is a stable sort whose output is ordered by
`comparator(a, b) ≤ 0`; we embed it as the stable `List.mergeSort`. -/
def PQueue.enqueue (comparator : α → α → Int) (q : PQueue α) (item : α) :
    PQueue α :=
  ⟨(q.items ++ [item]).mergeSort fun a b => comparator a b ≤ 0⟩

/-- `dequeue()` (lines 20–22): `items.shift()`, which returns `undefined`
(`none`) on an empty array and otherwise removes and returns the first
element. -/
def PQueue.dequeue (q : PQueue α) : Option α × PQueue α :=
  (q.items.head?, ⟨q.items.tail⟩)

/-- `get length()` (lines 24–26). -/
def PQueue.qlength (q : PQueue α) : Nat :=
  q.items.length

/-- The boolean order induced by a JS sort comparator. -/
def cmpLe (comparator : α → α → Int) (a b : α) : Bool :=
  comparator a b ≤ 0

/-! ## Stable insertion characterisation of `push` + stable sort

When the array is already sorted (which the `PriorityQueue` maintains as an
invariant), appending one element and stably sorting is the same as
inserting the new element after every element that compares `≤ 0` to it. -/

/-- Insert `e` into `l` after all elements `a` with `le a e`. -/
def insertE (le : α → α → Bool) (e : α) : List α → List α
  | [] => [e]
  | a :: l => if le a e then a :: insertE le e l else e :: a :: l

/-! ## Properties of the queue comparator -/

/-! ## Instrumented queue entries

To reason about insertion order ("stability"), the queue operations are run
over entries tagged with their arrival index.  The comparator ignores the
tag, so by `List.map_mergeSort` the instrumented run projects exactly onto
the un-instrumented one. -/

/-- A queue entry tagged with its arrival (insertion) index. -/
abbrev TaggedEntry := Nat × QueueEntry

/-- The queue comparator lifted to tagged entries (the tag is ignored,
exactly as the comparator on lines 34–40 reads only the entry's fields). -/
def taggedComparator (a b : TaggedEntry) : Int :=
  queueComparator a.2 b.2

/-- The strict "scheduler order" on tagged entries: strictly smaller sort
key, or equal sort key and earlier arrival.  The queue's item array is kept
sorted by this order. -/
def SchedBefore (x y : TaggedEntry) : Prop :=
  queueComparator x.2 y.2 < 0 ∨ (queueComparator x.2 y.2 = 0 ∧ x.1 < y.1)

instance : DecidablePred fun p : TaggedEntry × TaggedEntry => SchedBefore p.1 p.2 :=
  fun _ => by unfold SchedBefore; infer_instance

/-! ## Operation sequences on the queue -/

/-- One client-visible operation on the `PriorityQueue`. -/
inductive QOp (α : Type) where
  | enq (x : α)
  | deq
deriving DecidableEq, Repr

/-- Run a sequence of operations against a queue, collecting the result of
every `dequeue()` (in order). -/
def runQueue (comparator : α → α → Int) (q : PQueue α) :
    List (QOp α) → PQueue α × List (Option α)
  | [] => (q, [])
  | QOp.enq x :: ops => runQueue comparator (q.enqueue comparator x) ops
  | QOp.deq :: ops =>
    let (out, q') := q.dequeue
    let (qf, outs) := runQueue comparator q' ops
    (qf, out :: outs)

/-- Tag each enqueued entry with its arrival index, starting from `n`. -/
def tagOps (n : Nat) : List (QOp QueueEntry) → List (QOp TaggedEntry)
  | [] => []
  | QOp.enq x :: ops => QOp.enq (n, x) :: tagOps (n + 1) ops
  | QOp.deq :: ops => QOp.deq :: tagOps n ops

/-- The entries enqueued by a sequence of operations, in order. -/
def enqList : List (QOp α) → List α
  | [] => []
  | QOp.enq x :: ops => x :: enqList ops
  | QOp.deq :: ops => enqList ops

/-! ## Invariants of the instrumented queue -/

/-! ## Projection of the instrumented run onto the plain run -/

/-- Map a queue operation through an entry transformation. -/
def mapQOp (f : α → β) : QOp α → QOp β
  | QOp.enq x => QOp.enq (f x)
  | QOp.deq => QOp.deq

/-! ## The in-memory stores and system state

`ingestionJobs` and `batchStatuses` are JS `Map`s keyed by uuid strings;
they are modelled as association lists with `Map.get` / `Map.set`
semantics (set replaces the binding of an existing key, else appends). -/

/-- `Map.prototype.get`: the value bound to `k`, or `undefined`. -/
def mapGet (m : List (Nat × β)) (k : Nat) : Option β :=
  match m with
  | [] => none
  | (k', v) :: rest => if k' = k then some v else mapGet rest k

/-- `Map.prototype.set`: rebind `k` if present, else append the binding. -/
def mapSet (m : List (Nat × β)) (k : Nat) (v : β) : List (Nat × β) :=
  match m with
  | [] => [(k, v)]
  | (k', v') :: rest =>
    if k' = k then (k, v) :: rest else (k', v') :: mapSet rest k v

/-- A record in the `batchStatuses` map:
`{ batch_id, ids, status }` (lines 64, 76, 116). -/
structure BatchRecord where
  batch_id : Nat
  ids : List Int
  status : Status
deriving DecidableEq, Repr

/-- A record in the `ingestionJobs` map:
`{ ingestion_id, status, batches, priority, created_time }` (line 121). -/
structure JobRecord where
  ingestion_id : Nat
  status : Status
  batches : List Nat
  priority : Priority
  created_time : Nat
deriving DecidableEq, Repr

/-- The module-level mutable state of the service: the two stores, the
scheduler queue, the rate-limit timestamp, and the uuid counter that
models `uuidv4()`. -/
structure SystemState where
  ingestionJobs : List (Nat × JobRecord)
  batchStatuses : List (Nat × BatchRecord)
  queue : PQueue QueueEntry
  lastProcessedTime : Nat
  nextId : Nat
deriving DecidableEq, Repr

/-- The initial state of the module: empty maps, empty queue,
`lastProcessedTime = 0` (line 43). -/
def initialState : SystemState :=
  { ingestionJobs := [], batchStatuses := [], queue := ⟨[]⟩,
    lastProcessedTime := 0, nextId := 0 }

/-- `RATE_LIMIT_MS = 5000` (line 44). -/
def RATE_LIMIT_MS : Nat := 5000

/-- `BATCH_SIZE = 3` (line 45). -/
def BATCH_SIZE : Nat := 3

/-! ## The status aggregator -/

/-- The pure status computation at line 92:
`allYetToStart ? 'yet_to_start' : anyTriggered ? 'triggered' : 'completed'`,
as a function of the (optional, since `Map.get` may miss) batch statuses. -/
def deriveStatus (statuses : List (Option Status)) : Status :=
  let allYetToStart := statuses.all fun b => b = some yet_to_start
  let anyTriggered := statuses.any fun b => b = some triggered
  if allYetToStart then yet_to_start
  else if anyTriggered then triggered
  else completed

/-- `updateIngestionStatus(ingestion_id)` (lines 83–94): look the job up
(return unchanged when absent), read the status of each referenced batch,
and store the job back with the recomputed status. -/
def updateIngestionStatus (st : SystemState) (ingestion_id : Nat) :
    SystemState :=
  match mapGet st.ingestionJobs ingestion_id with
  | none => st
  | some job =>
    let statuses := job.batches.map fun batch_id =>
      (mapGet st.batchStatuses batch_id).map BatchRecord.status
    let job' : JobRecord := { job with status := deriveStatus statuses }
    { st with ingestionJobs := mapSet st.ingestionJobs ingestion_id job' }

/-! ## The `POST /ingest` handler -/

/-- An element of the submitted `ids` array: a JS number that is an
integer, or any other JS value (non-integer number, string, …). -/
inductive JsValue where
  | int (n : Int)
  | nonInt
deriving DecidableEq, Repr

/-- The request body: `ids` is `some l` when it is an array (of JS values)
and `none` otherwise; `priority` is `none` when the field is absent, in
which case the destructuring default `'LOW'` applies (line 98). -/
structure IngestRequest where
  ids : Option (List JsValue)
  priority : Option String
deriving DecidableEq, Repr

/-- `Number.isInteger(id) && id >= 1 && id <= 1000000007` (line 101). -/
def validId : JsValue → Bool
  | JsValue.int n => 1 ≤ n && n ≤ 1000000007
  | JsValue.nonInt => false

/-- `['HIGH', 'MEDIUM', 'LOW'].includes(priority)` (line 104), returning
the decoded priority. -/
def priorityOfString (s : String) : Option Priority :=
  if s = "HIGH" then some HIGH
  else if s = "MEDIUM" then some MEDIUM
  else if s = "LOW" then some LOW
  else none

/-- Numeric value of an already-validated id. -/
def jsValueInt : JsValue → Int
  | JsValue.int n => n
  | JsValue.nonInt => 0

/-- The response of the handler. -/
inductive IngestResponse where
  | ok (ingestion_id : Nat)
  | invalidIds
  | invalidPriority
deriving DecidableEq, Repr

/-- `ids.slice(i, i + BATCH_SIZE)` loop of line 113: split into
consecutive groups of at most `BATCH_SIZE`. -/
def chunk3 : List Int → List (List Int)
  | [] => []
  | a :: rest =>
    (a :: rest).take BATCH_SIZE :: chunk3 ((a :: rest).drop BATCH_SIZE)
termination_by l => l.length
decreasing_by
  simp [BATCH_SIZE]
  omega

/-- The body of the batching loop (lines 113–119): for each group, draw a
fresh `batch_id`, store the batch record as `yet_to_start`, collect the
`batch_id`, and enqueue the scheduler entry. -/
def createBatches (ingestion_id : Nat) (p : Priority) (created_time : Nat) :
    SystemState → List (List Int) → SystemState × List Nat
  | st, [] => (st, [])
  | st, g :: gs =>
    let batch_id := st.nextId
    let st1 : SystemState :=
      { st with
        batchStatuses := mapSet st.batchStatuses batch_id
          ⟨batch_id, g, yet_to_start⟩,
        queue := st.queue.enqueue queueComparator
          ⟨batch_id, g, p, created_time, ingestion_id⟩,
        nextId := st.nextId + 1 }
    let (st2, rest) := createBatches ingestion_id p created_time st1 gs
    (st2, batch_id :: rest)

/-- The `POST /ingest` handler (lines 97–129).  Returns the state after the
synchronous part of the handler, the HTTP response, and whether the
single-flight check `queue.length === batches.length` started a new
`processBatches` run (the run itself is modelled separately). -/
def postIngest (st : SystemState) (req : IngestRequest) (now : Nat) :
    SystemState × IngestResponse × Bool :=
  let priority := req.priority.getD "LOW"
  match req.ids with
  | none => (st, IngestResponse.invalidIds, false)
  | some arr =>
    if arr.length = 0 ∨ ¬ arr.all validId then
      (st, IngestResponse.invalidIds, false)
    else
      match priorityOfString priority with
      | none => (st, IngestResponse.invalidPriority, false)
      | some p =>
        let ingestion_id := st.nextId
        let created_time := now
        let st0 : SystemState := { st with nextId := st.nextId + 1 }
        let ids : List Int := arr.map jsValueInt
        let (st1, batches) :=
          createBatches ingestion_id p created_time st0 (chunk3 ids)
        let job : JobRecord :=
          ⟨ingestion_id, yet_to_start, batches, p, created_time⟩
        let st2 : SystemState :=
          { st1 with ingestionJobs := mapSet st1.ingestionJobs ingestion_id job }
        let started := st2.queue.qlength = batches.length
        (st2, IngestResponse.ok ingestion_id, started)

/-! ## The dispatcher loop `processBatches` -/

/-- The per-item loop of lines 68–74: each id is attempted exactly once, in
order; `fetchExternalData` (line 48) may fail per call, the `catch` logs
and continues.  `fetchOk k` tells whether the `k`-th call of this batch
succeeds; the returned list records the attempts in order. -/
def processItems (fetchOk : Nat → Bool) : Nat → List Int → List (Int × Bool)
  | _, [] => []
  | k, id :: rest => (id, fetchOk k) :: processItems fetchOk (k + 1) rest

/-- Lines 64–65: `batchStatuses.set(batch_id, { batch_id, ids, status:
'triggered' }); updateIngestionStatus(ingestion_id)` for a dequeued entry. -/
def triggerPhase (st : SystemState) (e : QueueEntry) : SystemState :=
  let rec' : BatchRecord := ⟨e.batch_id, e.ids, triggered⟩
  updateIngestionStatus
    { st with batchStatuses := mapSet st.batchStatuses e.batch_id rec' }
    e.ingestion_id

/-- Lines 76–78: mark the batch `completed`, recompute the job status, and
record `lastProcessedTime = Date.now()` (the completion instant). -/
def completePhase (st : SystemState) (e : QueueEntry) (now : Nat) :
    SystemState :=
  let rec' : BatchRecord := ⟨e.batch_id, e.ids, completed⟩
  let st1 := updateIngestionStatus
    { st with batchStatuses := mapSet st.batchStatuses e.batch_id rec' }
    e.ingestion_id
  { st1 with lastProcessedTime := now }

/-- The record of one dispatched batch: when the gate let it through
(dequeue + `triggered` mark) and when it completed. -/
structure DispatchRecord where
  entry : QueueEntry
  triggerTime : Nat
  completionTime : Nat
  attempts : List (Int × Bool)
deriving DecidableEq, Repr

/-- One iteration of the `while` loop of lines 55–79.  `now` is `Date.now()`
at the top of the iteration and `dur` the total wall time of the per-item
processing.  Returns `none` when the loop guard `queue.length > 0` fails.
The rate gate (lines 56–59) suspends until `lastProcessedTime +
RATE_LIMIT_MS` when the elapsed time is below the interval, so the batch is
dequeued and marked at `max now (lastProcessedTime + RATE_LIMIT_MS)`. -/
def dispatchIteration (fetchOk : Nat → Bool) (st : SystemState)
    (now dur : Nat) : Option (SystemState × DispatchRecord) :=
  match st.queue.items with
  | [] => none
  | e :: rest =>
    let triggerTime :=
      if now - st.lastProcessedTime < RATE_LIMIT_MS then
        st.lastProcessedTime + RATE_LIMIT_MS
      else now
    let st1 : SystemState := { st with queue := ⟨rest⟩ }
    let st2 := triggerPhase st1 e
    let attempts := processItems fetchOk 0 e.ids
    let completionTime := triggerTime + dur
    let st3 := completePhase st2 e completionTime
    some (st3, ⟨e, triggerTime, completionTime, attempts⟩)

/-- A full `processBatches()` run (single active loop): iterate until the
queue empties or the schedule of `(now, dur)` observations runs out,
collecting one `DispatchRecord` per dispatched batch. -/
def processBatchesRun (fetchOk : Nat → Bool) :
    SystemState → List (Nat × Nat) → SystemState × List DispatchRecord
  | st, [] => (st, [])
  | st, (now, dur) :: sched =>
    match dispatchIteration fetchOk st now dur with
    | none => (st, [])
    | some (st', r) =>
      let (stf, recs) := processBatchesRun fetchOk st' sched
      (stf, r :: recs)

/-! ## The system as a transition system

A `processBatches` loop suspends at `await` points; between the mark-
`triggered` step and the mark-`completed` step of one iteration, other
request handlers (and, through the known single-flight race, even other
loop instances) may run.  The system is therefore modelled as a labelled
transition system whose steps are: a `POST /ingest` request, the first
half of a dispatcher iteration (dequeue + mark `triggered`), and the
second half (mark `completed`) for a batch currently in flight. -/

/-- Batches dequeued and marked `triggered` whose item loop has not yet
finished — one per suspended `processBatches` frame. -/
structure RunState where
  sys : SystemState
  inFlight : List QueueEntry
deriving DecidableEq, Repr

/-- One atomic step of the system. -/
inductive SysOp where
  | ingest (req : IngestRequest) (now : Nat)
  | trigger
  | complete (e : QueueEntry) (now : Nat)
deriving DecidableEq, Repr

/-- The step function.  `trigger` does nothing when the queue is empty
(the loop guard exits instead); `complete e` does nothing unless `e` is in
flight (only a loop frame holding `e` can execute it). -/
def stepOp (s : RunState) : SysOp → RunState
  | SysOp.ingest req now => ⟨(postIngest s.sys req now).1, s.inFlight⟩
  | SysOp.trigger =>
    match s.sys.queue.items with
    | [] => s
    | e :: rest =>
      ⟨triggerPhase { s.sys with queue := ⟨rest⟩ } e, e :: s.inFlight⟩
  | SysOp.complete e now =>
    if e ∈ s.inFlight then
      ⟨completePhase s.sys e now, s.inFlight.erase e⟩
    else s

/-- The initial run state. -/
def initialRun : RunState := ⟨initialState, []⟩

/-- Execute a sequence of steps from the initial state. -/
def runOps (ops : List SysOp) : RunState :=
  ops.foldl stepOp initialRun

/-- The status currently stored for batch id `b`. -/
def batchStatusOf (st : SystemState) (b : Nat) : Option Status :=
  (mapGet st.batchStatuses b).map BatchRecord.status

/-- Progress rank of a batch status along
`yet_to_start → triggered → completed`. -/
def statusRank : Status → Nat
  | yet_to_start => 0
  | triggered => 1
  | completed => 2

/-! ## Lemmas about the status aggregator -/

/-- A concrete state used to witness the aggregator claims: job `10` has
two batches, one `completed` and one `yet_to_start`, none `triggered`. -/
def sampleState : SystemState :=
  { ingestionJobs := [(10, ⟨10, triggered, [0, 1], LOW, 0⟩)],
    batchStatuses := [(0, ⟨0, [1], completed⟩), (1, ⟨1, [2], yet_to_start⟩)],
    queue := ⟨[]⟩, lastProcessedTime := 0, nextId := 11 }

/-! ## Characterisation of the batching loop -/

/-- The scheduler entries created by the batching loop for groups `gs`,
batch ids starting at `n`. -/
def batchEntries (jid : Nat) (p : Priority) (t : Nat) :
    Nat → List (List Int) → List QueueEntry
  | _, [] => []
  | n, g :: gs => ⟨n, g, p, t, jid⟩ :: batchEntries jid p t (n + 1) gs

/-! ## Properties of the chunking loop -/

/-- A submission that the spec calls valid: `ids` is a non-empty array of
integers each in `[1, 1000000007]`, and the (possibly defaulted) priority
is one of `HIGH`, `MEDIUM`, `LOW`. -/
def specValidSubmission (req : IngestRequest) : Prop :=
  (∃ arr, req.ids = some arr ∧ arr ≠ [] ∧
    ∀ v ∈ arr, ∃ n : Int, v = JsValue.int n ∧ 1 ≤ n ∧ n ≤ 1000000007) ∧
  (req.priority.getD "LOW") ∈ (["HIGH", "MEDIUM", "LOW"] : List String)

/-! ## Dispatcher timing and error handling -/

/-- A concrete state with one pending two-item batch, used to witness the
dispatcher claims. -/
def sampleQueuedState : SystemState :=
  { ingestionJobs := [(0, ⟨0, yet_to_start, [1], LOW, 7⟩)],
    batchStatuses := [(1, ⟨1, [5, 6], yet_to_start⟩)],
    queue := ⟨[⟨1, [5, 6], LOW, 7, 0⟩]⟩,
    lastProcessedTime := 0, nextId := 2 }

/-- A concrete state with two pending batches. -/
def sampleTwoBatchState : SystemState :=
  { ingestionJobs := [(0, ⟨0, yet_to_start, [1, 2], LOW, 7⟩)],
    batchStatuses := [(1, ⟨1, [5], yet_to_start⟩), (2, ⟨2, [6], yet_to_start⟩)],
    queue := ⟨[⟨1, [5], LOW, 7, 0⟩, ⟨2, [6], LOW, 7, 0⟩]⟩,
    lastProcessedTime := 0, nextId := 3 }

/-! ## The scheduler ordering claims -/

/-! ## Effects of the dispatcher phases on the stores -/

/-! ## The reachability invariant for batch-status monotonicity -/

/-- Invariant of reachable run states: fresh ids are unused, every id in
the queue or in flight is allocated, no batch id occurs twice across the
pending queue and the in-flight set, pending batches are `yet_to_start`,
and in-flight batches are `triggered`. -/
def GoodState (s : RunState) : Prop :=
  (∀ b, s.sys.nextId ≤ b → mapGet s.sys.batchStatuses b = none) ∧
  (∀ e ∈ s.sys.queue.items, e.batch_id < s.sys.nextId) ∧
  (∀ e ∈ s.inFlight, e.batch_id < s.sys.nextId) ∧
  ((s.sys.queue.items.map QueueEntry.batch_id ++
    s.inFlight.map QueueEntry.batch_id).Nodup) ∧
  (∀ e ∈ s.sys.queue.items, batchStatusOf s.sys e.batch_id =
    some yet_to_start) ∧
  (∀ e ∈ s.inFlight, batchStatusOf s.sys e.batch_id = some triggered)

/-- A concrete submission and the states it reaches, used to witness C3. -/
def c3Req : IngestRequest := ⟨some [JsValue.int 5], none⟩

def c3Entry : QueueEntry := ⟨1, [5], LOW, 100, 0⟩

def c3StateA : SystemState :=
  { ingestionJobs := [(0, ⟨0, yet_to_start, [1], LOW, 100⟩)],
    batchStatuses := [(1, ⟨1, [5], yet_to_start⟩)],
    queue := ⟨[c3Entry]⟩, lastProcessedTime := 0, nextId := 2 }

def c3RunB : RunState :=
  ⟨{ ingestionJobs := [(0, ⟨0, triggered, [1], LOW, 100⟩)],
     batchStatuses := [(1, ⟨1, [5], triggered⟩)],
     queue := ⟨[]⟩, lastProcessedTime := 0, nextId := 2 }, [c3Entry]⟩

/-! ## Theorems -/

theorem PQueue.enqueue_eq_mergeSort (comparator : α → α → Int)
    (q : PQueue α) (item : α) :
    (q.enqueue comparator item).items =
      (q.items ++ [item]).mergeSort (cmpLe comparator) := rfl

theorem mem_insertE (le : α → α → Bool) (e : α) :
    ∀ l (x : α), x ∈ insertE le e l ↔ x = e ∨ x ∈ l := by
  intro l x
  induction l with
  | nil => simp [insertE]
  | cons a l ih =>
    by_cases h : le a e
    · simp [insertE, h, ih]
      tauto
    · simp [insertE, h]

theorem insertE_perm (le : α → α → Bool) (e : α) :
    ∀ l, (insertE le e l).Perm (e :: l) := by
  intro l
  induction l with
  | nil => simp [insertE]
  | cons a l ih =>
    by_cases h : le a e
    · simp only [insertE, h, if_true]
      exact (ih.cons a).trans (List.Perm.swap e a l)
    · simp [insertE, h]

theorem length_insertE (le : α → α → Bool) (e : α) (l : List α) :
    (insertE le e l).length = l.length + 1 :=
  (insertE_perm le e l).length_eq

/-- On a sorted list, appending an element and stably sorting equals stable
insertion. -/
theorem mergeSort_append_singleton {le : α → α → Bool}
    (trans : ∀ a b c : α, le a b → le b c → le a c)
    (total : ∀ a b : α, le a b || le b a) (e : α) :
    ∀ {l : List α}, l.Pairwise (le · ·) →
      (l ++ [e]).mergeSort le = insertE le e l := by
  intro l
  induction l with
  | nil => simp [insertE]
  | cons a l ih =>
    intro hs
    have hpl : l.Pairwise (le · ·) := hs.tail
    have hrel : ∀ x ∈ l, le a x := fun x hx => List.rel_of_pairwise_cons hs hx
    obtain ⟨l₁, l₂, h₁, h₂, h₃⟩ := List.mergeSort_cons trans total a (l ++ [e])
    rw [ih hpl] at h₂
    by_cases hae : le a e
    · -- `a` stays in front: no element of `insertE le e l` may precede `a`.
      have hl₁ : l₁ = [] := by
        cases l₁ with
        | nil => rfl
        | cons b t =>
          exfalso
          have hb : b ∈ insertE le e l := by
            rw [h₂]; exact List.mem_append_left _ (List.mem_cons_self b t)
          have hb' := (mem_insertE le e l b).mp hb
          have hab : le a b := by
            rcases hb' with rfl | hbl
            · exact hae
            · exact hrel b hbl
          have h4 := h₃ b (List.mem_cons_self b t)
          rw [hab] at h4
          simp at h4
      subst hl₁
      simp only [List.nil_append] at h₁ h₂
      rw [List.cons_append, h₁, ← h₂]
      simp [insertE, hae]
    · -- `e` moves in front of `a` (and hence in front of all of `a :: l`).
      have hse : ∀ x ∈ l, ¬ le x e = true := by
        intro x hx hxe
        exact hae (trans a x e (hrel x hx) hxe)
      have hins : insertE le e l = e :: l := by
        cases l with
        | nil => rfl
        | cons b t =>
          have hb : ¬ le b e = true := hse b (List.mem_cons_self b t)
          simp [insertE, hb]
      rw [hins] at h₂
      -- `l₁ ++ l₂ = e :: l` and every element of `l₁` fails `le a ·`, while
      -- every element of `l` satisfies it, so `l₁ = [e]`.
      have hl : l₁ = [e] ∧ l₂ = l := by
        cases l₁ with
        | nil =>
          exfalso
          -- The sorted output would start `a :: e :: …`, forcing `le a e`.
          simp only [List.nil_append] at h₁ h₂
          have hsorted := List.sorted_mergeSort trans total (a :: (l ++ [e]))
          rw [h₁, ← h₂] at hsorted
          exact hae (List.rel_of_pairwise_cons hsorted (List.mem_cons_self e l))
        | cons b t =>
          rw [List.cons_append] at h₂
          injection h₂ with h5 h6
          subst h5
          cases t with
          | nil => simpa using h6.symm
          | cons c u =>
            exfalso
            have hcl : c ∈ l := by rw [h6]; simp
            have h4 := h₃ c (by simp)
            have h5 := hrel c hcl
            rw [h5] at h4
            simp at h4
      obtain ⟨rfl, rfl⟩ := hl
      rw [List.cons_append, h₁]
      simp [insertE, hae]

/-- The comparator is sign-antisymmetric: `comparator(b, a) = -comparator(a, b)`. -/
theorem queueComparator_neg (a b : QueueEntry) :
    queueComparator b a = - queueComparator a b := by
  unfold queueComparator
  by_cases h : priorityOrder a.priority = priorityOrder b.priority
  · simp [h]
  · have h' : priorityOrder b.priority ≠ priorityOrder a.priority := fun hh => h hh.symm
    simp [h, h'] <;> omega

/-- `comparator(a, b) ≤ 0` exactly when `a`'s sort key `(rank, created_time)`
is lexicographically at most `b`'s. -/
theorem queueComparator_nonpos_iff (a b : QueueEntry) :
    queueComparator a b ≤ 0 ↔
      (priorityOrder a.priority < priorityOrder b.priority ∨
        (priorityOrder a.priority = priorityOrder b.priority ∧
          a.created_time ≤ b.created_time)) := by
  unfold queueComparator
  by_cases h : priorityOrder a.priority = priorityOrder b.priority
  · simp [h] <;> omega
  · simp [h] <;> omega

/-- `comparator(a, b) < 0` exactly when `a`'s sort key is lexicographically
strictly below `b`'s. -/
theorem queueComparator_neg_iff (a b : QueueEntry) :
    queueComparator a b < 0 ↔
      (priorityOrder a.priority < priorityOrder b.priority ∨
        (priorityOrder a.priority = priorityOrder b.priority ∧
          a.created_time < b.created_time)) := by
  unfold queueComparator
  by_cases h : priorityOrder a.priority = priorityOrder b.priority
  · simp [h] <;> omega
  · simp [h] <;> omega

/-- `comparator(a, b) = 0` exactly when `a` and `b` have equal sort keys. -/
theorem queueComparator_eq_zero_iff (a b : QueueEntry) :
    queueComparator a b = 0 ↔
      (priorityOrder a.priority = priorityOrder b.priority ∧
        a.created_time = b.created_time) := by
  unfold queueComparator
  by_cases h : priorityOrder a.priority = priorityOrder b.priority
  · simp [h] <;> omega
  · simp [h] <;> omega

theorem cmpLe_queueComparator_trans :
    ∀ a b c : QueueEntry, cmpLe queueComparator a b → cmpLe queueComparator b c →
      cmpLe queueComparator a c := by
  intro a b c hab hbc
  simp only [cmpLe, decide_eq_true_eq] at *
  rw [queueComparator_nonpos_iff] at *
  omega

theorem cmpLe_queueComparator_total :
    ∀ a b : QueueEntry, cmpLe queueComparator a b || cmpLe queueComparator b a := by
  intro a b
  simp only [cmpLe, Bool.or_eq_true, decide_eq_true_eq]
  rw [queueComparator_nonpos_iff, queueComparator_nonpos_iff]
  omega

theorem cmpLe_taggedComparator_trans :
    ∀ a b c : TaggedEntry, cmpLe taggedComparator a b → cmpLe taggedComparator b c →
      cmpLe taggedComparator a c := fun a b c =>
  cmpLe_queueComparator_trans a.2 b.2 c.2

theorem cmpLe_taggedComparator_total :
    ∀ a b : TaggedEntry, cmpLe taggedComparator a b || cmpLe taggedComparator b a :=
  fun a b => cmpLe_queueComparator_total a.2 b.2

theorem schedBefore_cmpLe {x y : TaggedEntry} (h : SchedBefore x y) :
    cmpLe taggedComparator x y = true := by
  simp only [cmpLe, taggedComparator, decide_eq_true_eq]
  rcases h with h | ⟨h, _⟩ <;> omega

theorem cmp_lt_of_lt_of_le {a b c : QueueEntry} (h₁ : queueComparator a b < 0)
    (h₂ : queueComparator b c ≤ 0) : queueComparator a c < 0 := by
  rw [queueComparator_neg_iff] at h₁ ⊢
  rw [queueComparator_nonpos_iff] at h₂
  omega

/-- Stable insertion of a freshly tagged entry keeps the item array sorted
by the strict scheduler order. -/
theorem pairwise_schedBefore_insertE {n : Nat} {e : QueueEntry} :
    ∀ l : List TaggedEntry, l.Pairwise SchedBefore → (∀ x ∈ l, x.1 < n) →
      (insertE (cmpLe taggedComparator) (n, e) l).Pairwise SchedBefore := by
  intro l
  induction l with
  | nil => intro _ _; simp [insertE]
  | cons a l ih =>
    intro hp hb
    by_cases h : cmpLe taggedComparator a (n, e)
    · simp only [insertE, h, if_true]
      refine List.Pairwise.cons ?_ (ih hp.tail fun x hx => hb x (List.mem_cons_of_mem a hx))
      intro y hy
      rcases (mem_insertE _ _ l y).mp hy with rfl | hyl
      · have ha := hb a (List.mem_cons_self a l)
        simp only [cmpLe, taggedComparator, decide_eq_true_eq] at h
        rcases lt_or_eq_of_le h with hlt | heq
        · exact Or.inl hlt
        · exact Or.inr ⟨heq, ha⟩
      · exact List.rel_of_pairwise_cons hp hyl
    · simp only [insertE, h, if_false]
      have hlt : queueComparator e a.2 < 0 := by
        simp only [cmpLe, taggedComparator, decide_eq_true_eq, not_le] at h
        rw [queueComparator_neg a.2 e]
        omega
      refine List.Pairwise.cons ?_ hp
      intro y hy
      rcases List.mem_cons.mp hy with rfl | hyl
      · exact Or.inl hlt
      · have hay := List.rel_of_pairwise_cons hp hyl
        have hle : queueComparator a.2 y.2 ≤ 0 := by
          rcases hay with h' | ⟨h', _⟩ <;> omega
        exact Or.inl (cmp_lt_of_lt_of_le hlt hle)

theorem enqueue_tagged_insertE (q : PQueue TaggedEntry) (x : TaggedEntry)
    (h : q.items.Pairwise (cmpLe taggedComparator · ·)) :
    (q.enqueue taggedComparator x).items =
      insertE (cmpLe taggedComparator) x q.items :=
  mergeSort_append_singleton cmpLe_taggedComparator_trans
    cmpLe_taggedComparator_total x h

/-- Conservation over an arbitrary operation sequence: the dequeued entries
plus the entries still pending are a permutation of the enqueued entries
plus the initial content.  Nothing is dropped and nothing is duplicated. -/
theorem runQueue_perm (comparator : α → α → Int) :
    ∀ (ops : List (QOp α)) (q : PQueue α),
      (((runQueue comparator q ops).2.filterMap id) ++
          (runQueue comparator q ops).1.items).Perm
        (enqList ops ++ q.items) := by
  intro ops
  induction ops with
  | nil => intro q; simp [runQueue, enqList]
  | cons op ops ih =>
    intro q
    cases op with
    | enq x =>
      have h2 : (q.enqueue comparator x).items.Perm (x :: q.items) :=
        ((q.items ++ [x]).mergeSort_perm _).trans (List.perm_append_singleton x q.items)
      simp only [runQueue, enqList]
      exact (ih _).trans ((List.Perm.append_left _ h2).trans List.perm_middle)
    | deq =>
      cases hq : q.items with
      | nil =>
        simp only [runQueue, PQueue.dequeue, hq, List.head?_nil, List.tail_nil,
          List.filterMap_cons_none, enqList]
        simpa [hq] using ih ⟨[]⟩
      | cons h t =>
        simp only [runQueue, PQueue.dequeue, hq, List.head?_cons, List.tail_cons,
          List.filterMap_cons_some, enqList, List.cons_append]
        exact ((ih ⟨t⟩).cons h).trans List.perm_middle.symm

/-- Queue state invariant for an instrumented run: the item array stays
sorted by the strict scheduler order, and every tag is below the next
arrival index. -/
theorem runQueue_state_inv :
    ∀ (ops : List (QOp QueueEntry)) (q : PQueue TaggedEntry) (n : Nat),
      q.items.Pairwise SchedBefore → (∀ x ∈ q.items, x.1 < n) →
      (runQueue taggedComparator q (tagOps n ops)).1.items.Pairwise SchedBefore ∧
        (∀ x ∈ (runQueue taggedComparator q (tagOps n ops)).1.items,
          x.1 < n + (enqList ops).length) := by
  intro ops
  induction ops with
  | nil =>
    intro q n hp hb
    exact ⟨hp, fun x hx => by have := hb x hx; simp [enqList]; omega⟩
  | cons op ops ih =>
    intro q n hp hb
    cases op with
    | enq x =>
      have hins : (q.enqueue taggedComparator (n, x)).items =
          insertE (cmpLe taggedComparator) (n, x) q.items :=
        enqueue_tagged_insertE q (n, x) (hp.imp schedBefore_cmpLe)
      have hp' : (q.enqueue taggedComparator (n, x)).items.Pairwise SchedBefore := by
        rw [hins]; exact pairwise_schedBefore_insertE q.items hp hb
      have hb' : ∀ y ∈ (q.enqueue taggedComparator (n, x)).items, y.1 < n + 1 := by
        intro y hy
        rw [hins] at hy
        rcases (mem_insertE _ _ q.items y).mp hy with rfl | hyl
        · omega
        · have := hb y hyl; omega
      have := ih (q.enqueue taggedComparator (n, x)) (n + 1) hp' hb'
      simp only [tagOps, runQueue, enqList, List.length_cons]
      exact ⟨this.1, fun y hy => by have := this.2 y hy; omega⟩
    | deq =>
      cases hq : q.items with
      | nil =>
        have := ih ⟨[]⟩ n List.Pairwise.nil (by simp)
        simp only [tagOps, runQueue, PQueue.dequeue, hq, List.head?_nil,
          List.tail_nil, enqList]
        exact this
      | cons h t =>
        have hp' : t.Pairwise SchedBefore := by
          rw [hq] at hp; exact hp.tail
        have hb' : ∀ x ∈ t, x.1 < n := fun x hx => by
          apply hb; rw [hq]; exact List.mem_cons_of_mem h hx
        have := ih ⟨t⟩ n hp' hb'
        simp only [tagOps, runQueue, PQueue.dequeue, hq, List.head?_cons,
          List.tail_cons, enqList]
        exact this

/-- Every entry dequeued during an instrumented run was either pending at
the start or was enqueued during the run (tag at least `n`). -/
theorem runQueue_deq_mem :
    ∀ (ops : List (QOp QueueEntry)) (q : PQueue TaggedEntry) (n : Nat),
      ∀ x ∈ (runQueue taggedComparator q (tagOps n ops)).2.filterMap id,
        x ∈ q.items ∨ n ≤ x.1 := by
  intro ops
  induction ops with
  | nil => intro q n x hx; simp [tagOps, runQueue] at hx
  | cons op ops ih =>
    intro q n x hx
    cases op with
    | enq e =>
      simp only [tagOps, runQueue] at hx
      rcases ih (q.enqueue taggedComparator (n, e)) (n + 1) x hx with hmem | htag
      · have hx2 : x ∈ q.items ++ [(n, e)] := by
          rw [PQueue.enqueue_eq_mergeSort] at hmem
          exact List.mem_mergeSort.mp hmem
        rcases List.mem_append.mp hx2 with h | h
        · exact Or.inl h
        · simp at h; subst h; right; omega
      · right; omega
    | deq =>
      cases hq : q.items with
      | nil =>
        simp only [tagOps, runQueue, PQueue.dequeue, hq, List.head?_nil,
          List.tail_nil, List.filterMap_cons_none] at hx
        rcases ih ⟨[]⟩ n x hx with hmem | htag
        · simp at hmem
        · exact Or.inr htag
      | cons h t =>
        simp only [tagOps, runQueue, PQueue.dequeue, hq, List.head?_cons,
          List.tail_cons, List.filterMap_cons_some] at hx
        rcases List.mem_cons.mp hx with rfl | hx'
        · exact Or.inl (List.mem_cons_self _ _)
        · rcases ih ⟨t⟩ n x hx' with hmem | htag
          · exact Or.inl (List.mem_cons_of_mem h hmem)
          · exact Or.inr htag

/-- FIFO among equal sort keys: over any instrumented run, the chronological
sequence of dequeued entries lists entries with equal `(priority rank,
created_time)` keys in arrival order. -/
theorem runQueue_fifo :
    ∀ (ops : List (QOp QueueEntry)) (q : PQueue TaggedEntry) (n : Nat),
      q.items.Pairwise SchedBefore → (∀ x ∈ q.items, x.1 < n) →
      ((runQueue taggedComparator q (tagOps n ops)).2.filterMap id).Pairwise
        (fun x y => taggedComparator x y = 0 → x.1 < y.1) := by
  intro ops
  induction ops with
  | nil => intro q n _ _; simp [tagOps, runQueue]
  | cons op ops ih =>
    intro q n hp hb
    cases op with
    | enq x =>
      have hins : (q.enqueue taggedComparator (n, x)).items =
          insertE (cmpLe taggedComparator) (n, x) q.items :=
        enqueue_tagged_insertE q (n, x) (hp.imp schedBefore_cmpLe)
      have hp' : (q.enqueue taggedComparator (n, x)).items.Pairwise SchedBefore := by
        rw [hins]; exact pairwise_schedBefore_insertE q.items hp hb
      have hb' : ∀ y ∈ (q.enqueue taggedComparator (n, x)).items, y.1 < n + 1 := by
        intro y hy
        rw [hins] at hy
        rcases (mem_insertE _ _ q.items y).mp hy with rfl | hyl
        · omega
        · have := hb y hyl; omega
      simp only [tagOps, runQueue]
      exact ih (q.enqueue taggedComparator (n, x)) (n + 1) hp' hb'
    | deq =>
      cases hq : q.items with
      | nil =>
        simp only [tagOps, runQueue, PQueue.dequeue, hq, List.head?_nil,
          List.tail_nil, List.filterMap_cons_none]
        exact ih ⟨[]⟩ n List.Pairwise.nil (by simp)
      | cons h t =>
        have hp' : t.Pairwise SchedBefore := by rw [hq] at hp; exact hp.tail
        have hb' : ∀ x ∈ t, x.1 < n := fun x hx => by
          apply hb; rw [hq]; exact List.mem_cons_of_mem h hx
        simp only [tagOps, runQueue, PQueue.dequeue, hq, List.head?_cons,
          List.tail_cons, List.filterMap_cons_some]
        refine List.Pairwise.cons ?_ (ih ⟨t⟩ n hp' hb')
        intro y hy hcmp
        rcases runQueue_deq_mem ops ⟨t⟩ n y hy with hmem | htag
        · have hsb : SchedBefore h y := by
            rw [hq] at hp; exact List.rel_of_pairwise_cons hp hmem
          rcases hsb with hlt | ⟨_, htag⟩
          · exfalso; simp only [taggedComparator] at hcmp; omega
          · exact htag
        · have : h.1 < n := hb h (by rw [hq]; exact List.mem_cons_self h t)
          omega

theorem tagOps_map_untag :
    ∀ (n : Nat) (ops : List (QOp QueueEntry)),
      (tagOps n ops).map (mapQOp Prod.snd) = ops := by
  intro n ops
  induction ops generalizing n with
  | nil => rfl
  | cons op ops ih =>
    cases op with
    | enq x => simp [tagOps, mapQOp, ih]
    | deq => simp [tagOps, mapQOp, ih]

theorem enqList_tagOps_fst :
    ∀ (n : Nat) (ops : List (QOp QueueEntry)),
      (enqList (tagOps n ops)).map Prod.fst =
        List.range' n (enqList ops).length := by
  intro n ops
  induction ops generalizing n with
  | nil => rfl
  | cons op ops ih =>
    cases op with
    | enq x => simp [tagOps, enqList, ih, List.range'_succ]
    | deq => simp [tagOps, enqList, ih]

theorem enqList_tagOps_snd :
    ∀ (n : Nat) (ops : List (QOp QueueEntry)),
      (enqList (tagOps n ops)).map Prod.snd = enqList ops := by
  intro n ops
  induction ops generalizing n with
  | nil => rfl
  | cons op ops ih =>
    cases op with
    | enq x => simp [tagOps, enqList, ih]
    | deq => simp [tagOps, enqList, ih]

/-- The tags of an instrumented run's enqueues are pairwise distinct. -/
theorem enqList_tagOps_nodup (n : Nat) (ops : List (QOp QueueEntry)) :
    (enqList (tagOps n ops)).Nodup := by
  have h := enqList_tagOps_fst n ops
  have hnd : ((enqList (tagOps n ops)).map Prod.fst).Nodup := by
    rw [h]; exact List.nodup_range' n (enqList ops).length 1 (by omega)
  exact hnd.of_map Prod.fst

/-- A run over entries projects, entry by entry, onto the run over their
images whenever the comparator only reads the image (`List.map_mergeSort`:
the stable sort commutes with the projection). -/
theorem runQueue_map (f : α → β) (cα : α → α → Int) (cβ : β → β → Int)
    (hc : ∀ a b, cα a b = cβ (f a) (f b)) :
    ∀ (ops : List (QOp α)) (q : PQueue α),
      (runQueue cβ ⟨q.items.map f⟩ (ops.map (mapQOp f))).1.items =
          (runQueue cα q ops).1.items.map f ∧
        (runQueue cβ ⟨q.items.map f⟩ (ops.map (mapQOp f))).2 =
          (runQueue cα q ops).2.map (Option.map f) := by
  intro ops
  induction ops with
  | nil => intro q; simp [runQueue]
  | cons op ops ih =>
    intro q
    cases op with
    | enq x =>
      have hitems : ((q.items.map f) ++ [f x]).mergeSort (cmpLe cβ) =
          ((q.items ++ [x]).mergeSort (cmpLe cα)).map f := by
        have h0 : ((q.items ++ [x]).mergeSort (cmpLe cα)).map f =
            ((q.items ++ [x]).map f).mergeSort (cmpLe cβ) :=
          List.map_mergeSort fun a _ b _ => by simp [cmpLe, hc a b]
        rw [h0]
        simp
      have henq : (PQueue.enqueue cβ ⟨q.items.map f⟩ (f x)) =
          (⟨(q.enqueue cα x).items.map f⟩ : PQueue β) :=
        congrArg PQueue.mk hitems
      simp only [List.map_cons, mapQOp, runQueue, henq]
      exact ih (q.enqueue cα x)
    | deq =>
      have htail : ((q.items.map f).tail : List β) = q.items.tail.map f := by
        simp [List.map_tail]
      simp only [List.map_cons, mapQOp, runQueue, PQueue.dequeue,
        List.head?_map, htail]
      have hih := ih ⟨q.items.tail⟩
      exact ⟨hih.1, by rw [hih.2]⟩

theorem mapGet_mapSet_self (m : List (Nat × β)) (k : Nat) (v : β) :
    mapGet (mapSet m k v) k = some v := by
  induction m with
  | nil => simp [mapGet, mapSet]
  | cons p rest ih =>
    obtain ⟨k', v'⟩ := p
    by_cases h : k' = k
    · simp [mapGet, mapSet, h]
    · simp [mapGet, mapSet, h, ih]

theorem mapGet_mapSet_ne (m : List (Nat × β)) {k k' : Nat} (v : β)
    (h : k ≠ k') : mapGet (mapSet m k v) k' = mapGet m k' := by
  induction m with
  | nil => simp [mapGet, mapSet, h]
  | cons p rest ih =>
    obtain ⟨k₀, v₀⟩ := p
    by_cases h0 : k₀ = k
    · subst h0
      simp [mapGet, mapSet, h]
    · simp only [mapSet, h0, if_false]
      by_cases h1 : k₀ = k'
      · simp [mapGet, h1]
      · simp [mapGet, h1, ih]

theorem mapSet_mapSet_self (m : List (Nat × β)) (k : Nat) (v w : β) :
    mapSet (mapSet m k v) k w = mapSet m k w := by
  induction m with
  | nil => simp [mapSet]
  | cons p rest ih =>
    obtain ⟨k', v'⟩ := p
    by_cases h : k' = k
    · simp [mapSet, h]
    · simp [mapSet, h, ih]

theorem deriveStatus_of_all_yts {statuses : List (Option Status)}
    (h : ∀ s ∈ statuses, s = some yet_to_start) :
    deriveStatus statuses = yet_to_start := by
  have hall : statuses.all (fun b => b = some yet_to_start) = true := by
    rw [List.all_eq_true]
    intro s hs
    simp [h s hs]
  simp [deriveStatus, hall]

theorem deriveStatus_of_any_triggered {statuses : List (Option Status)}
    (h : ∃ s ∈ statuses, s = some triggered)
    (h' : ¬ ∀ s ∈ statuses, s = some yet_to_start) :
    deriveStatus statuses = triggered := by
  have hall : statuses.all (fun b => b = some yet_to_start) ≠ true := by
    intro hc
    rw [List.all_eq_true] at hc
    exact h' fun s hs => by simpa using hc s hs
  have hany : statuses.any (fun b => b = some triggered) = true := by
    rw [List.any_eq_true]
    obtain ⟨s, hs, rfl⟩ := h
    exact ⟨some triggered, hs, by simp⟩
  simp [deriveStatus, hall, hany]

theorem deriveStatus_of_rest {statuses : List (Option Status)}
    (h : ¬ ∃ s ∈ statuses, s = some triggered)
    (h' : ¬ ∀ s ∈ statuses, s = some yet_to_start) :
    deriveStatus statuses = completed := by
  have hall : statuses.all (fun b => b = some yet_to_start) ≠ true := by
    intro hc
    rw [List.all_eq_true] at hc
    exact h' fun s hs => by simpa using hc s hs
  have hany : statuses.any (fun b => b = some triggered) ≠ true := by
    intro hc
    rw [List.any_eq_true] at hc
    obtain ⟨s, hs, heq⟩ := hc
    exact h ⟨s, hs, by simpa using heq⟩
  simp [deriveStatus, hall, hany]

/-- `updateIngestionStatus` never touches the batch store. -/
theorem updateIngestionStatus_batchStatuses (st : SystemState) (i : Nat) :
    (updateIngestionStatus st i).batchStatuses = st.batchStatuses := by
  unfold updateIngestionStatus
  cases mapGet st.ingestionJobs i <;> rfl

theorem updateIngestionStatus_queue (st : SystemState) (i : Nat) :
    (updateIngestionStatus st i).queue = st.queue := by
  unfold updateIngestionStatus
  cases mapGet st.ingestionJobs i <;> rfl

theorem updateIngestionStatus_lastProcessedTime (st : SystemState) (i : Nat) :
    (updateIngestionStatus st i).lastProcessedTime = st.lastProcessedTime := by
  unfold updateIngestionStatus
  cases mapGet st.ingestionJobs i <;> rfl

theorem updateIngestionStatus_nextId (st : SystemState) (i : Nat) :
    (updateIngestionStatus st i).nextId = st.nextId := by
  unfold updateIngestionStatus
  cases mapGet st.ingestionJobs i <;> rfl

/-- Effect of `updateIngestionStatus` on the job store when the job exists. -/
theorem updateIngestionStatus_of_some {st : SystemState} {i : Nat}
    {job : JobRecord} (h : mapGet st.ingestionJobs i = some job) :
    updateIngestionStatus st i =
      { st with ingestionJobs :=
          mapSet st.ingestionJobs i { job with status := deriveStatus (job.batches.map (batchStatusOf st)) } } := by
  unfold updateIngestionStatus
  rw [h]
  rfl

theorem updateIngestionStatus_of_none {st : SystemState} {i : Nat}
    (h : mapGet st.ingestionJobs i = none) :
    updateIngestionStatus st i = st := by
  unfold updateIngestionStatus
  rw [h]

/-- C2: for every job with a non-empty list of batches (all of which are
present in the batch store), `updateIngestionStatus` sets the job's status
to `yet_to_start` if every batch is `yet_to_start`, else to `triggered` if
any batch is `triggered`, else to `completed`; in particular a mix of
`completed` and `yet_to_start` batches with none `triggered` yields
`completed`. -/
theorem C2_status_aggregation_rule (st : SystemState) (jid : Nat)
    (job : JobRecord) (hjob : mapGet st.ingestionJobs jid = some job)
    (hne : job.batches ≠ [])
    (hex : ∀ b ∈ job.batches, (batchStatusOf st b).isSome) :
    ∃ job', mapGet (updateIngestionStatus st jid).ingestionJobs jid = some job' ∧
      job'.batches = job.batches ∧
      ((∀ b ∈ job.batches, batchStatusOf st b = some yet_to_start) →
        job'.status = yet_to_start) ∧
      ((∃ b ∈ job.batches, batchStatusOf st b = some triggered) →
        ¬ (∀ b ∈ job.batches, batchStatusOf st b = some yet_to_start) →
        job'.status = triggered) ∧
      (¬ (∃ b ∈ job.batches, batchStatusOf st b = some triggered) →
        ¬ (∀ b ∈ job.batches, batchStatusOf st b = some yet_to_start) →
        job'.status = completed) ∧
      ((∃ b ∈ job.batches, batchStatusOf st b = some completed) →
        (∃ b ∈ job.batches, batchStatusOf st b = some yet_to_start) →
        ¬ (∃ b ∈ job.batches, batchStatusOf st b = some triggered) →
        job'.status = completed) := by
  rw [updateIngestionStatus_of_some hjob]
  refine ⟨{ job with
      status := deriveStatus (job.batches.map (batchStatusOf st)) },
    by simp [mapGet_mapSet_self], rfl, ?_, ?_, ?_, ?_⟩
  · intro hall
    show deriveStatus _ = yet_to_start
    apply deriveStatus_of_all_yts
    intro s hs
    obtain ⟨b, hb, rfl⟩ := List.mem_map.mp hs
    exact hall b hb
  · rintro ⟨b, hb, hbs⟩ hnall
    show deriveStatus _ = triggered
    apply deriveStatus_of_any_triggered
    · exact ⟨batchStatusOf st b, List.mem_map_of_mem _ hb, hbs⟩
    · intro hc
      exact hnall fun b' hb' => hc _ (List.mem_map_of_mem _ hb')
  · intro hnex hnall
    show deriveStatus _ = completed
    apply deriveStatus_of_rest
    · rintro ⟨s, hs, rfl⟩
      obtain ⟨b, hb, hbs⟩ := List.mem_map.mp hs
      exact hnex ⟨b, hb, hbs⟩
    · intro hc
      exact hnall fun b' hb' => hc _ (List.mem_map_of_mem _ hb')
  · rintro ⟨b, hb, hbs⟩ ⟨b', hb', hbs'⟩ hnex
    show deriveStatus _ = completed
    apply deriveStatus_of_rest
    · rintro ⟨s, hs, rfl⟩
      obtain ⟨b'', hb'', hbs''⟩ := List.mem_map.mp hs
      exact hnex ⟨b'', hb'', hbs''⟩
    · intro hc
      have hcb := hc (batchStatusOf st b) (List.mem_map_of_mem _ hb)
      rw [hbs] at hcb
      simp at hcb

/-- Witness for C2 at a concrete state: a job whose batches are one
`completed` and one `yet_to_start` (none `triggered`) recomputes to
`completed`. -/
theorem C2_status_aggregation_rule_witness :
    ∃ job', mapGet (updateIngestionStatus sampleState 10).ingestionJobs 10 =
        some job' ∧ job'.status = completed := by
  obtain ⟨job', hget, -, -, -, -, hmix⟩ :=
    C2_status_aggregation_rule sampleState 10 ⟨10, triggered, [0, 1], LOW, 0⟩
      (by decide) (by decide) (by decide)
  exact ⟨job', hget, hmix ⟨0, by decide, by decide⟩ ⟨1, by decide, by decide⟩
    (by decide)⟩

theorem batchStatusOf_set_jobs (st : SystemState) (X : List (Nat × JobRecord)) :
    batchStatusOf { st with ingestionJobs := X } = batchStatusOf st := rfl

/-- C9: the status aggregator is a pure, deterministic function of the
batch statuses of the job at the moment of invocation.  (i) Running it
twice in a row is the same as running it once (idempotence, as an equality
of whole states).  (ii) The stored job status becomes exactly
`deriveStatus` of the referenced batch statuses.  (iii) The result does not
depend on the job status stored beforehand. -/
theorem C9_aggregator_pure (st : SystemState) (jid : Nat) :
    updateIngestionStatus (updateIngestionStatus st jid) jid =
      updateIngestionStatus st jid ∧
    (∀ job, mapGet st.ingestionJobs jid = some job →
      (∃ job', mapGet (updateIngestionStatus st jid).ingestionJobs jid =
          some job' ∧
        job'.status = deriveStatus (job.batches.map (batchStatusOf st))) ∧
      (∀ σ : Status,
        updateIngestionStatus
          { st with ingestionJobs :=
              mapSet st.ingestionJobs jid { job with status := σ } } jid =
        updateIngestionStatus st jid)) := by
  constructor
  · cases hj : mapGet st.ingestionJobs jid with
    | none =>
      rw [updateIngestionStatus_of_none hj, updateIngestionStatus_of_none hj]
    | some job =>
      rw [updateIngestionStatus_of_some hj]
      have hj' : mapGet
          (mapSet st.ingestionJobs jid
            { job with status :=
                deriveStatus (job.batches.map (batchStatusOf st)) }) jid =
          some { job with status :=
              deriveStatus (job.batches.map (batchStatusOf st)) } :=
        mapGet_mapSet_self _ _ _
      rw [updateIngestionStatus_of_some hj']
      simp [batchStatusOf_set_jobs, mapSet_mapSet_self]
  · intro job hj
    constructor
    · rw [updateIngestionStatus_of_some hj]
      exact ⟨_, mapGet_mapSet_self _ _ _, rfl⟩
    · intro σ
      have hjσ : mapGet
          (mapSet st.ingestionJobs jid { job with status := σ }) jid =
          some { job with status := σ } := mapGet_mapSet_self _ _ _
      rw [updateIngestionStatus_of_some hjσ, updateIngestionStatus_of_some hj]
      simp [batchStatusOf_set_jobs, mapSet_mapSet_self]

/-- Witness for C9 at a concrete state and job. -/
theorem C9_aggregator_pure_witness :
    updateIngestionStatus (updateIngestionStatus sampleState 10) 10 =
      updateIngestionStatus sampleState 10 ∧
    ∃ job', mapGet (updateIngestionStatus sampleState 10).ingestionJobs 10 =
        some job' ∧
      job'.status = deriveStatus
        (([0, 1] : List Nat).map (batchStatusOf sampleState)) := by
  obtain ⟨hidem, hpure⟩ := C9_aggregator_pure sampleState 10
  obtain ⟨⟨job', hget, hstat⟩, -⟩ :=
    hpure ⟨10, triggered, [0, 1], LOW, 0⟩ (by decide)
  exact ⟨hidem, job', hget, hstat⟩

theorem batchEntries_ids (jid : Nat) (p : Priority) (t : Nat) :
    ∀ (gs : List (List Int)) (n : Nat),
      (batchEntries jid p t n gs).map QueueEntry.ids = gs := by
  intro gs
  induction gs with
  | nil => intro n; rfl
  | cons g gs ih => intro n; simp [batchEntries, ih]

theorem batchEntries_fields (jid : Nat) (p : Priority) (t : Nat) :
    ∀ (gs : List (List Int)) (n : Nat), ∀ e ∈ batchEntries jid p t n gs,
      e.priority = p ∧ e.created_time = t ∧ e.ingestion_id = jid ∧
        n ≤ e.batch_id ∧ e.batch_id < n + gs.length := by
  intro gs
  induction gs with
  | nil => intro n e he; simp [batchEntries] at he
  | cons g gs ih =>
    intro n e he
    rcases List.mem_cons.mp he with rfl | he'
    · refine ⟨rfl, rfl, rfl, Nat.le_refl n, by simp⟩
    · obtain ⟨h1, h2, h3, h4, h5⟩ := ih (n + 1) e he'
      exact ⟨h1, h2, h3, by omega, by simp; omega⟩

theorem batchEntries_batchIds (jid : Nat) (p : Priority) (t : Nat) :
    ∀ (gs : List (List Int)) (n : Nat),
      (batchEntries jid p t n gs).map QueueEntry.batch_id =
        List.range' n gs.length := by
  intro gs
  induction gs with
  | nil => intro n; rfl
  | cons g gs ih => intro n; simp [batchEntries, ih, List.range'_succ]

theorem createBatches_snd (jid : Nat) (p : Priority) (t : Nat) :
    ∀ (gs : List (List Int)) (st : SystemState),
      (createBatches jid p t st gs).2 = List.range' st.nextId gs.length := by
  intro gs
  induction gs with
  | nil => intro st; rfl
  | cons g gs ih =>
    intro st
    simp only [createBatches, ih, List.length_cons, List.range'_succ]

theorem createBatches_nextId (jid : Nat) (p : Priority) (t : Nat) :
    ∀ (gs : List (List Int)) (st : SystemState),
      (createBatches jid p t st gs).1.nextId = st.nextId + gs.length := by
  intro gs
  induction gs with
  | nil => intro st; simp [createBatches]
  | cons g gs ih =>
    intro st
    simp only [createBatches, ih, List.length_cons]
    omega

theorem createBatches_ingestionJobs (jid : Nat) (p : Priority) (t : Nat) :
    ∀ (gs : List (List Int)) (st : SystemState),
      (createBatches jid p t st gs).1.ingestionJobs = st.ingestionJobs := by
  intro gs
  induction gs with
  | nil => intro st; rfl
  | cons g gs ih => intro st; simp only [createBatches, ih]

theorem createBatches_lastProcessedTime (jid : Nat) (p : Priority) (t : Nat) :
    ∀ (gs : List (List Int)) (st : SystemState),
      (createBatches jid p t st gs).1.lastProcessedTime =
        st.lastProcessedTime := by
  intro gs
  induction gs with
  | nil => intro st; rfl
  | cons g gs ih => intro st; simp only [createBatches, ih]

/-- Batch ids outside the freshly allocated range keep their bindings. -/
theorem createBatches_batchStatuses_old (jid : Nat) (p : Priority) (t : Nat) :
    ∀ (gs : List (List Int)) (st : SystemState) (b : Nat),
      (b < st.nextId ∨ st.nextId + gs.length ≤ b) →
      mapGet (createBatches jid p t st gs).1.batchStatuses b =
        mapGet st.batchStatuses b := by
  intro gs
  induction gs with
  | nil => intro st b _; rfl
  | cons g gs ih =>
    intro st b hb
    simp only [List.length_cons] at hb
    have hbn : st.nextId ≠ b := by omega
    simp only [createBatches]
    rw [ih _ b (Or.elim (by omega : b < st.nextId + 1 ∨ st.nextId + 1 + gs.length ≤ b) Or.inl Or.inr)]
    simp only [mapGet_mapSet_ne _ _ hbn]

/-- Every freshly created batch record is stored with status
`yet_to_start` and the ids of its group. -/
theorem createBatches_batchStatuses_new (jid : Nat) (p : Priority) (t : Nat) :
    ∀ (gs : List (List Int)) (st : SystemState),
      ∀ e ∈ batchEntries jid p t st.nextId gs,
        mapGet (createBatches jid p t st gs).1.batchStatuses e.batch_id =
          some ⟨e.batch_id, e.ids, yet_to_start⟩ := by
  intro gs
  induction gs with
  | nil => intro st e he; simp [batchEntries] at he
  | cons g gs ih =>
    intro st e he
    simp only [createBatches]
    rcases List.mem_cons.mp he with rfl | he'
    · rw [createBatches_batchStatuses_old _ _ _ _ _ _
        (Or.inl (by omega : st.nextId < st.nextId + 1))]
      simp [mapGet_mapSet_self]
    · exact ih _ e he'

/-- The queue after the batching loop holds the old entries plus one entry
per group, as a multiset. -/
theorem createBatches_queue_perm (jid : Nat) (p : Priority) (t : Nat) :
    ∀ (gs : List (List Int)) (st : SystemState),
      (createBatches jid p t st gs).1.queue.items.Perm
        (st.queue.items ++ batchEntries jid p t st.nextId gs) := by
  intro gs
  induction gs with
  | nil => intro st; simp [createBatches, batchEntries]
  | cons g gs ih =>
    intro st
    simp only [createBatches, batchEntries]
    refine (ih _).trans ?_
    have henq : (st.queue.enqueue queueComparator
        (⟨st.nextId, g, p, t, jid⟩ : QueueEntry)).items.Perm
        (st.queue.items ++ [(⟨st.nextId, g, p, t, jid⟩ : QueueEntry)]) :=
      List.mergeSort_perm _ _
    refine (henq.append_right _).trans ?_
    rw [List.append_assoc]
    exact List.Perm.refl _

theorem chunk3_flatten : ∀ l : List Int, (chunk3 l).flatten = l := by
  have key : ∀ (n : Nat) (l : List Int), l.length ≤ n →
      (chunk3 l).flatten = l := by
    intro n
    induction n with
    | zero =>
      intro l hl
      cases l with
      | nil => simp [chunk3]
      | cons a rest => simp at hl
    | succ n ih =>
      intro l hl
      cases l with
      | nil => simp [chunk3]
      | cons a rest =>
        rw [chunk3]
        simp only [List.flatten_cons]
        rw [ih _ (by simp only [List.length_drop, List.length_cons] at hl ⊢; simp [BATCH_SIZE]; omega)]
        exact List.take_append_drop _ _
  intro l
  exact key l.length l (Nat.le_refl _)

theorem chunk3_groups : ∀ l : List Int, ∀ g ∈ chunk3 l,
    g ≠ [] ∧ g.length ≤ BATCH_SIZE := by
  have key : ∀ (n : Nat) (l : List Int), l.length ≤ n →
      ∀ g ∈ chunk3 l, g ≠ [] ∧ g.length ≤ BATCH_SIZE := by
    intro n
    induction n with
    | zero =>
      intro l hl
      cases l with
      | nil => simp [chunk3]
      | cons a rest => simp at hl
    | succ n ih =>
      intro l hl
      cases l with
      | nil => simp [chunk3]
      | cons a rest =>
        intro g hg
        rw [chunk3] at hg
        rcases List.mem_cons.mp hg with rfl | hg'
        · constructor
          · simp [BATCH_SIZE]
          · simpa using List.length_take_le BATCH_SIZE (a :: rest)
        · exact ih _ (by simp only [List.length_drop, List.length_cons] at hl ⊢; simp [BATCH_SIZE]; omega) g hg'
  intro l
  exact key l.length l (Nat.le_refl _)

theorem chunk3_ne_nil {l : List Int} (h : l ≠ []) : chunk3 l ≠ [] := by
  cases l with
  | nil => exact absurd rfl h
  | cons a rest => rw [chunk3]; simp

/-- The handler on a valid request, unfolded. -/
theorem postIngest_of_valid {st : SystemState} {req : IngestRequest}
    {now : Nat} {arr : List JsValue} {p : Priority}
    (hids : req.ids = some arr)
    (hvalid : ¬ (arr.length = 0 ∨ ¬ arr.all validId))
    (hp : priorityOfString (req.priority.getD "LOW") = some p) :
    postIngest st req now =
      (let st0 : SystemState := { st with nextId := st.nextId + 1 }
       let cb := createBatches st.nextId p now st0 (chunk3 (arr.map jsValueInt))
       let st2 : SystemState := { cb.1 with ingestionJobs := mapSet cb.1.ingestionJobs st.nextId ⟨st.nextId, yet_to_start, cb.2, p, now⟩ }
       (st2, IngestResponse.ok st.nextId,
         decide (st2.queue.qlength = cb.2.length))) := by
  unfold postIngest
  rw [hids]
  simp only [if_neg hvalid, hp]

theorem batchEntries_length (jid : Nat) (p : Priority) (t : Nat)
    (gs : List (List Int)) (n : Nat) :
    (batchEntries jid p t n gs).length = gs.length := by
  have h := batchEntries_ids jid p t gs n
  calc (batchEntries jid p t n gs).length
      = ((batchEntries jid p t n gs).map QueueEntry.ids).length :=
        (List.length_map _ _).symm
    _ = gs.length := by rw [h]

theorem validId_iff (v : JsValue) : validId v = true ↔
    ∃ n : Int, v = JsValue.int n ∧ 1 ≤ n ∧ n ≤ 1000000007 := by
  cases v with
  | int n => simp [validId]
  | nonInt => simp [validId]

theorem priorityOfString_some_iff (s : String) :
    (priorityOfString s).isSome ↔
      s ∈ (["HIGH", "MEDIUM", "LOW"] : List String) := by
  unfold priorityOfString
  by_cases h1 : s = "HIGH"
  · simp [h1]
  · by_cases h2 : s = "MEDIUM"
    · simp [h2]
    · by_cases h3 : s = "LOW"
      · simp [h3]
      · simp [h1, h2, h3]

/-- C6: the handler rejects with a client error exactly when the
submission is invalid in the spec's sense, and a rejected request leaves
the state untouched and starts no dispatcher run. -/
theorem C6_validation_iff (st : SystemState) (req : IngestRequest)
    (now : Nat) :
    (((postIngest st req now).2.1 = IngestResponse.invalidIds ∨
        (postIngest st req now).2.1 = IngestResponse.invalidPriority) ↔
      ¬ specValidSubmission req) ∧
    (((postIngest st req now).2.1 = IngestResponse.invalidIds ∨
        (postIngest st req now).2.1 = IngestResponse.invalidPriority) →
      (postIngest st req now).1 = st ∧ (postIngest st req now).2.2 = false) := by
  cases hids : req.ids with
  | none =>
    have hpost : postIngest st req now = (st, IngestResponse.invalidIds, false) := by
      unfold postIngest
      rw [hids]
    rw [hpost]
    refine ⟨⟨fun _ => ?_, fun _ => Or.inl rfl⟩, fun _ => ⟨rfl, rfl⟩⟩
    rintro ⟨⟨arr, harr, -, -⟩, -⟩
    rw [hids] at harr
    exact Option.noConfusion harr
  | some arr =>
    by_cases hval : arr.length = 0 ∨ ¬ arr.all validId
    · have hpost : postIngest st req now = (st, IngestResponse.invalidIds, false) := by
        unfold postIngest
        rw [hids]
        simp only [if_pos hval]
      rw [hpost]
      refine ⟨⟨fun _ => ?_, fun _ => Or.inl rfl⟩, fun _ => ⟨rfl, rfl⟩⟩
      rintro ⟨⟨arr', harr', hne', hall'⟩, -⟩
      rw [hids] at harr'
      injection harr' with harr'
      subst harr'
      rcases hval with hlen | hnall
      · exact hne' (List.eq_nil_of_length_eq_zero hlen)
      · refine hnall ?_
        rw [List.all_eq_true]
        intro v hv
        exact (validId_iff v).mpr (hall' v hv)
    · cases hp : priorityOfString (req.priority.getD "LOW") with
      | none =>
        have hpost : postIngest st req now =
            (st, IngestResponse.invalidPriority, false) := by
          unfold postIngest
          rw [hids]
          simp only [if_neg hval, hp]
        rw [hpost]
        refine ⟨⟨fun _ => ?_, fun _ => Or.inr rfl⟩, fun _ => ⟨rfl, rfl⟩⟩
        rintro ⟨-, hmem⟩
        have hps := (priorityOfString_some_iff (req.priority.getD "LOW")).mpr hmem
        rw [hp] at hps
        simp at hps
      | some p =>
        rw [postIngest_of_valid hids hval hp]
        refine ⟨⟨fun hc => ?_, fun hc => absurd ?_ hc⟩, fun hc => ?_⟩
        · rcases hc with hc | hc <;> exact IngestResponse.noConfusion hc
        · constructor
          · push_neg at hval
            refine ⟨arr, hids, ?_, ?_⟩
            · intro hnil
              subst hnil
              exact hval.1 rfl
            · intro v hv
              exact (validId_iff v).mp (by
                have := hval.2
                rw [List.all_eq_true] at this
                exact this v hv)
          · exact (priorityOfString_some_iff _).mp (by rw [hp]; rfl)
        · rcases hc with hc | hc <;> exact absurd hc (by simp)

/-- Witness for C6: submitting `ids = [-1]` is rejected and mutates
nothing. -/
theorem C6_validation_iff_witness :
    (postIngest initialState ⟨some [JsValue.int (-1)], none⟩ 0).2.1 =
      IngestResponse.invalidIds ∧
    (postIngest initialState ⟨some [JsValue.int (-1)], none⟩ 0).1 =
      initialState ∧
    (postIngest initialState ⟨some [JsValue.int (-1)], none⟩ 0).2.2 = false := by
  have h := (C6_validation_iff initialState
    ⟨some [JsValue.int (-1)], none⟩ 0).2 (Or.inl (by decide))
  exact ⟨by decide, h.1, h.2⟩

/-- C8: on a valid submission the handler starts a new dispatcher run iff
the queue length right after enqueueing equals the number of batches just
enqueued, which happens iff the queue was empty beforehand. -/
theorem C8_single_flight (st : SystemState) (req : IngestRequest)
    (now : Nat) (arr : List JsValue) (p : Priority)
    (hids : req.ids = some arr)
    (hvalid : ¬ (arr.length = 0 ∨ ¬ arr.all validId))
    (hp : priorityOfString (req.priority.getD "LOW") = some p) :
    ((postIngest st req now).2.2 = true ↔
      (postIngest st req now).1.queue.qlength =
        (chunk3 (arr.map jsValueInt)).length) ∧
    ((postIngest st req now).2.2 = true ↔ st.queue.items = []) := by
  rw [postIngest_of_valid hids hvalid hp]
  set gs := chunk3 (arr.map jsValueInt) with hgs
  have hperm := createBatches_queue_perm st.nextId p now gs
    { st with nextId := st.nextId + 1 }
  have hlen : (createBatches st.nextId p now
      { st with nextId := st.nextId + 1 } gs).1.queue.items.length =
      st.queue.items.length + gs.length := by
    rw [hperm.length_eq]
    simp [batchEntries_length]
  have hbatches : (createBatches st.nextId p now
      { st with nextId := st.nextId + 1 } gs).2.length = gs.length := by
    rw [createBatches_snd]
    simp [List.length_range']
  constructor
  · simp only [PQueue.qlength, decide_eq_true_eq, hbatches]
  · simp only [PQueue.qlength, decide_eq_true_eq, hlen, hbatches]
    constructor
    · intro h
      have : st.queue.items.length = 0 := by omega
      exact List.eq_nil_of_length_eq_zero this
    · intro h
      rw [h]
      simp

/-- Witness for C8: the very first submission finds an empty queue and
starts a run. -/
theorem C8_single_flight_witness :
    (postIngest initialState ⟨some [JsValue.int 1], none⟩ 5).2.2 = true ∧
    initialState.queue.items = [] := by
  have h := (C8_single_flight initialState ⟨some [JsValue.int 1], none⟩ 5
    [JsValue.int 1] LOW (by decide) (by decide) (by decide)).2
  exact ⟨h.mpr rfl, rfl⟩

/-- C5: on a valid submission the handler partitions the ids into
consecutive groups of at most 3 preserving input order, creates one batch
record per group with status `yet_to_start`, creates one job referencing
all batch ids in order with status `yet_to_start`, enqueues one scheduler
entry per batch, and returns the job's identifier; e.g. `[1,2,3,4]` is
split into exactly `[1,2,3]` and `[4]`. -/
theorem C5_submission_shape (st : SystemState) (req : IngestRequest)
    (now : Nat) (arr : List JsValue) (p : Priority)
    (hids : req.ids = some arr)
    (hvalid : ¬ (arr.length = 0 ∨ ¬ arr.all validId))
    (hp : priorityOfString (req.priority.getD "LOW") = some p) :
    (postIngest st req now).2.1 = IngestResponse.ok st.nextId ∧
    (mapGet (postIngest st req now).1.ingestionJobs st.nextId =
      some ⟨st.nextId, yet_to_start,
        List.range' (st.nextId + 1) (chunk3 (arr.map jsValueInt)).length,
        p, now⟩) ∧
    (∀ e ∈ batchEntries st.nextId p now (st.nextId + 1)
        (chunk3 (arr.map jsValueInt)),
      mapGet (postIngest st req now).1.batchStatuses e.batch_id =
        some ⟨e.batch_id, e.ids, yet_to_start⟩) ∧
    ((batchEntries st.nextId p now (st.nextId + 1)
        (chunk3 (arr.map jsValueInt))).map QueueEntry.ids =
      chunk3 (arr.map jsValueInt)) ∧
    ((batchEntries st.nextId p now (st.nextId + 1)
        (chunk3 (arr.map jsValueInt))).map QueueEntry.batch_id =
      List.range' (st.nextId + 1) (chunk3 (arr.map jsValueInt)).length) ∧
    ((postIngest st req now).1.queue.items.Perm
      (st.queue.items ++ batchEntries st.nextId p now (st.nextId + 1)
        (chunk3 (arr.map jsValueInt)))) ∧
    ((chunk3 (arr.map jsValueInt)).flatten = arr.map jsValueInt) ∧
    (∀ g ∈ chunk3 (arr.map jsValueInt), g ≠ [] ∧ g.length ≤ BATCH_SIZE) ∧
    chunk3 [1, 2, 3, 4] = [[1, 2, 3], [4]] := by
  rw [postIngest_of_valid hids hvalid hp]
  set gs := chunk3 (arr.map jsValueInt) with hgs
  set st0 : SystemState := { st with nextId := st.nextId + 1 } with hst0
  have hsnd : (createBatches st.nextId p now st0 gs).2 =
      List.range' (st.nextId + 1) gs.length := by
    rw [createBatches_snd]
  refine ⟨rfl, ?_, ?_, batchEntries_ids _ _ _ _ _, ?_, ?_, chunk3_flatten _,
    chunk3_groups _, by simp [chunk3, BATCH_SIZE]⟩
  · show mapGet (mapSet _ st.nextId _) st.nextId = _
    rw [mapGet_mapSet_self, hsnd]
  · intro e he
    show mapGet (createBatches st.nextId p now st0 gs).1.batchStatuses
        e.batch_id = _
    exact createBatches_batchStatuses_new st.nextId p now gs st0 e he
  · have := batchEntries_batchIds st.nextId p now gs (st.nextId + 1)
    simpa using this
  · show (createBatches st.nextId p now st0 gs).1.queue.items.Perm _
    exact createBatches_queue_perm st.nextId p now gs st0

/-- Witness for C5: submitting `ids=[1,2,3,4]` with priority `HIGH` to the
fresh system yields job `0` with batches `[1, 2]` (two groups) and the
example split. -/
theorem C5_submission_shape_witness :
    (postIngest initialState
      ⟨some [JsValue.int 1, JsValue.int 2, JsValue.int 3, JsValue.int 4],
        some "HIGH"⟩ 100).2.1 = IngestResponse.ok 0 ∧
    mapGet (postIngest initialState
      ⟨some [JsValue.int 1, JsValue.int 2, JsValue.int 3, JsValue.int 4],
        some "HIGH"⟩ 100).1.ingestionJobs 0 =
      some ⟨0, yet_to_start, [1, 2], HIGH, 100⟩ ∧
    chunk3 [1, 2, 3, 4] = [[1, 2, 3], [4]] := by
  obtain ⟨hresp, hjob, -, -, -, -, -, -, hex⟩ :=
    C5_submission_shape initialState
      ⟨some [JsValue.int 1, JsValue.int 2, JsValue.int 3, JsValue.int 4],
        some "HIGH"⟩ 100
      [JsValue.int 1, JsValue.int 2, JsValue.int 3, JsValue.int 4] HIGH
      (by decide) (by decide) (by decide)
  have hmapids : List.map jsValueInt
      [JsValue.int 1, JsValue.int 2, JsValue.int 3, JsValue.int 4] =
      [1, 2, 3, 4] := rfl
  have h0 : initialState.nextId = 0 := rfl
  rw [h0] at hresp hjob
  rw [hmapids, hex] at hjob
  exact ⟨hresp, hjob, hex⟩

theorem processItems_fst (fetchOk : Nat → Bool) :
    ∀ (ids : List Int) (k : Nat),
      (processItems fetchOk k ids).map Prod.fst = ids := by
  intro ids
  induction ids with
  | nil => intro k; rfl
  | cons id rest ih => intro k; simp [processItems, ih]

/-- C7: for every dispatched batch and every pattern of per-item failures,
the item loop attempts each id exactly once in order (so a failure never
prevents a later attempt and never terminates the loop early), the
attempted ids do not depend on the failure pattern, and the batch still
ends `completed`. -/
theorem C7_per_item_failures (fetchOk : Nat → Bool) (st : SystemState)
    (now dur : Nat) :
    (∀ ids : List Int, ∀ k,
      (processItems fetchOk k ids).map Prod.fst = ids ∧
      (processItems fetchOk k ids).length = ids.length) ∧
    (∀ (fetchOk' : Nat → Bool) (ids : List Int) (k : Nat),
      (processItems fetchOk k ids).map Prod.fst =
        (processItems fetchOk' k ids).map Prod.fst) ∧
    (∀ st' r, dispatchIteration fetchOk st now dur = some (st', r) →
      r.attempts.map Prod.fst = r.entry.ids ∧
      batchStatusOf st' r.entry.batch_id = some completed) := by
  refine ⟨fun ids k => ⟨processItems_fst fetchOk ids k, ?_⟩,
    fun fetchOk' ids k => ?_, fun st' r hd => ?_⟩
  · have h := processItems_fst fetchOk ids k
    calc (processItems fetchOk k ids).length
        = ((processItems fetchOk k ids).map Prod.fst).length :=
          (List.length_map _ _).symm
      _ = ids.length := by rw [h]
  · rw [processItems_fst, processItems_fst]
  · unfold dispatchIteration at hd
    cases hq : st.queue.items with
    | nil => rw [hq] at hd; exact absurd hd (by simp)
    | cons e rest =>
      rw [hq] at hd
      simp only [Option.some.injEq] at hd
      obtain ⟨hst', hr⟩ : st' = _ ∧ r = _ := ⟨(Prod.mk.injEq _ _ _ _ ▸ hd).1.symm,
        (Prod.mk.injEq _ _ _ _ ▸ hd).2.symm⟩
      subst hst' hr
      refine ⟨processItems_fst fetchOk e.ids 0, ?_⟩
      show batchStatusOf (completePhase _ e _) e.batch_id = some completed
      unfold completePhase batchStatusOf
      simp only [updateIngestionStatus_batchStatuses]
      rw [mapGet_mapSet_self]
      rfl

/-- Timing facts for one dispatcher iteration: the new `lastProcessedTime`
is the recorded completion instant; the gate delays the dispatch to at
least `lastProcessedTime + RATE_LIMIT_MS`; completion is not before the
dispatch. -/
theorem dispatchIteration_times (fetchOk : Nat → Bool) (st : SystemState)
    (now dur : Nat) (st' : SystemState) (r : DispatchRecord)
    (h : dispatchIteration fetchOk st now dur = some (st', r)) :
    st'.lastProcessedTime = r.completionTime ∧
    st.lastProcessedTime + RATE_LIMIT_MS ≤ r.triggerTime ∧
    r.triggerTime ≤ r.completionTime := by
  unfold dispatchIteration at h
  cases hq : st.queue.items with
  | nil => rw [hq] at h; exact absurd h (by simp)
  | cons e rest =>
    rw [hq] at h
    simp only [Option.some.injEq] at h
    obtain ⟨hst', hr⟩ : st' = _ ∧ r = _ :=
      ⟨(Prod.mk.injEq _ _ _ _ ▸ h).1.symm, (Prod.mk.injEq _ _ _ _ ▸ h).2.symm⟩
    subst hst' hr
    refine ⟨rfl, ?_, by simp⟩
    by_cases hlt : now - st.lastProcessedTime < RATE_LIMIT_MS
    · simp [hlt]
    · simp only [hlt, if_false]
      unfold RATE_LIMIT_MS at hlt ⊢
      omega

/-- C4: within a dispatcher run, every dispatch (including the first) is
gated to at least `RATE_LIMIT_MS` after the `lastProcessedTime` on record;
consecutive dispatches are spaced at least `RATE_LIMIT_MS` after the
previous batch's recorded completion; and `lastProcessedTime` is recorded
as the completion instant (which is not before the dispatch instant). -/
theorem C4_dispatch_spacing (fetchOk : Nat → Bool) (st : SystemState)
    (sched : List (Nat × Nat)) :
    List.Chain' (fun r r' => r.completionTime + RATE_LIMIT_MS ≤ r'.triggerTime)
      (processBatchesRun fetchOk st sched).2 ∧
    (∀ r, (processBatchesRun fetchOk st sched).2.head? = some r →
      st.lastProcessedTime + RATE_LIMIT_MS ≤ r.triggerTime) ∧
    (∀ r ∈ (processBatchesRun fetchOk st sched).2,
      r.triggerTime ≤ r.completionTime) ∧
    (processBatchesRun fetchOk st sched).1.lastProcessedTime =
      ((processBatchesRun fetchOk st sched).2.map
        DispatchRecord.completionTime).getLastD st.lastProcessedTime := by
  induction sched generalizing st with
  | nil =>
    refine ⟨List.chain'_nil, fun r hr => by simp [processBatchesRun] at hr,
      fun r hr => by simp [processBatchesRun] at hr, rfl⟩
  | cons nd sched ih =>
    obtain ⟨now, dur⟩ := nd
    cases hd : dispatchIteration fetchOk st now dur with
    | none =>
      simp only [processBatchesRun, hd]
      exact ⟨List.chain'_nil, fun r hr => by simp at hr,
        fun r hr => by simp at hr, rfl⟩
    | some res =>
      obtain ⟨st', r⟩ := res
      obtain ⟨hlpt, hgate, hcomp⟩ :=
        dispatchIteration_times fetchOk st now dur st' r hd
      obtain ⟨ihchain, ihhead, ihmem, ihlast⟩ := ih st'
      simp only [processBatchesRun, hd]
      refine ⟨?_, ?_, ?_, ?_⟩
      · rw [List.chain'_cons']
        refine ⟨?_, ihchain⟩
        intro r' hr'
        have := ihhead r' hr'
        rw [hlpt] at this
        exact this
      · intro r0 hr0
        simp only [List.head?_cons, Option.some.injEq] at hr0
        subst hr0
        exact hgate
      · intro r0 hr0
        rcases List.mem_cons.mp hr0 with rfl | hr0'
        · exact hcomp
        · exact ihmem r0 hr0'
      · rw [List.map_cons, List.getLastD_cons, ihlast, hlpt]

/-- Witness for C7: dispatching the sample batch with the second item call
failing still attempts both ids and completes the batch. -/
theorem C7_per_item_failures_witness :
    ∃ st' r, dispatchIteration (fun k => k == 0) sampleQueuedState
        10000 2000 = some (st', r) ∧
      r.attempts.map Prod.fst = r.entry.ids ∧
      batchStatusOf st' r.entry.batch_id = some completed := by
  obtain ⟨ha, hc⟩ := (C7_per_item_failures (fun k => k == 0)
    sampleQueuedState 10000 2000).2.2 _ _ rfl
  exact ⟨_, _, rfl, ha, hc⟩

/-- Witness for C4 on a concrete two-batch run. -/
theorem C4_dispatch_spacing_witness :
    List.Chain' (fun r r' => r.completionTime + RATE_LIMIT_MS ≤ r'.triggerTime)
      (processBatchesRun (fun _ => true) sampleTwoBatchState
        [(6000, 1000), (6100, 1000)]).2 ∧
    ∃ r, (processBatchesRun (fun _ => true) sampleTwoBatchState
        [(6000, 1000), (6100, 1000)]).2.head? = some r ∧
      sampleTwoBatchState.lastProcessedTime + RATE_LIMIT_MS ≤ r.triggerTime := by
  obtain ⟨h1, h2, -, -⟩ := C4_dispatch_spacing (fun _ => true)
    sampleTwoBatchState [(6000, 1000), (6100, 1000)]
  exact ⟨h1, _, rfl, h2 _ rfl⟩

/-- C1: for every sequence of enqueue/dequeue operations (instrumented
with arrival indices, which the comparator ignores — the plain run is the
projection of the instrumented one):
(1) the plain run is exactly the instrumented run with tags erased;
(2) `dequeue()` signals empty (`undefined`) exactly on the empty queue;
(3) at every point of the run, `dequeue` removes and returns the pending
entry that is minimal by priority rank ascending then `created_time`
ascending, ties broken by insertion order;
(4) the dequeued entries plus the still-pending entries are a permutation
of the (pairwise distinct, arrival-tagged) enqueued entries: no entry is
returned twice and no entry is dropped. -/
theorem C1_dequeue_order (ops : List (QOp QueueEntry)) :
    ((runQueue queueComparator ⟨[]⟩ ops).2 =
        (runQueue taggedComparator ⟨[]⟩ (tagOps 0 ops)).2.map
          (Option.map Prod.snd) ∧
      (runQueue queueComparator ⟨[]⟩ ops).1.items =
        (runQueue taggedComparator ⟨[]⟩ (tagOps 0 ops)).1.items.map
          Prod.snd) ∧
    (∀ q : PQueue QueueEntry, q.dequeue.1 = none ↔ q.items = []) ∧
    (∀ pre suf, ops = pre ++ suf →
      ∀ i e rest,
        (runQueue taggedComparator ⟨[]⟩ (tagOps 0 pre)).1.items =
          (i, e) :: rest →
        (runQueue taggedComparator ⟨[]⟩ (tagOps 0 pre)).1.dequeue =
          (some (i, e), ⟨rest⟩) ∧
        ∀ j e', (j, e') ∈ rest →
          (priorityOrder e.priority < priorityOrder e'.priority ∨
            (priorityOrder e.priority = priorityOrder e'.priority ∧
              (e.created_time < e'.created_time ∨
                (e.created_time = e'.created_time ∧ i < j))))) ∧
    (((runQueue taggedComparator ⟨[]⟩ (tagOps 0 ops)).2.filterMap id ++
        (runQueue taggedComparator ⟨[]⟩ (tagOps 0 ops)).1.items).Perm
      (enqList (tagOps 0 ops)) ∧
      (enqList (tagOps 0 ops)).Nodup ∧
      ((runQueue taggedComparator ⟨[]⟩ (tagOps 0 ops)).2.filterMap id ++
        (runQueue taggedComparator ⟨[]⟩ (tagOps 0 ops)).1.items).Nodup ∧
      (enqList (tagOps 0 ops)).map Prod.snd = enqList ops) := by
  have hperm : (((runQueue taggedComparator ⟨[]⟩ (tagOps 0 ops)).2.filterMap
      id) ++ (runQueue taggedComparator ⟨[]⟩ (tagOps 0 ops)).1.items).Perm
      (enqList (tagOps 0 ops)) := by
    have h := runQueue_perm taggedComparator (tagOps 0 ops) ⟨[]⟩
    simpa using h
  refine ⟨?_, ?_, ?_, hperm, enqList_tagOps_nodup 0 ops, ?_, enqList_tagOps_snd 0 ops⟩
  · have h := runQueue_map Prod.snd taggedComparator queueComparator
      (fun a b => rfl) (tagOps 0 ops) ⟨[]⟩
    rw [tagOps_map_untag] at h
    exact ⟨h.2, h.1⟩
  · intro q
    cases hq : q.items with
    | nil => simp [PQueue.dequeue, hq]
    | cons h t => simp [PQueue.dequeue, hq]
  · intro pre suf hsplit i e rest hitems
    have hinv := (runQueue_state_inv pre ⟨[]⟩ 0 List.Pairwise.nil
      (by simp)).1
    rw [hitems] at hinv
    refine ⟨by simp [PQueue.dequeue, hitems], ?_⟩
    intro j e' hje'
    have hsb : SchedBefore (i, e) (j, e') :=
      List.rel_of_pairwise_cons hinv hje'
    rcases hsb with hlt | ⟨heq, hij⟩
    · rw [queueComparator_neg_iff] at hlt
      rcases hlt with h1 | ⟨h1, h2⟩
      · exact Or.inl h1
      · exact Or.inr ⟨h1, Or.inl h2⟩
    · rw [queueComparator_eq_zero_iff] at heq
      exact Or.inr ⟨heq.1, Or.inr ⟨heq.2, hij⟩⟩
  · exact (hperm.nodup_iff).mpr (enqList_tagOps_nodup 0 ops)

/-- Witness for C1 at a concrete run: enqueue a `LOW` entry then a `HIGH`
entry; the `HIGH` entry is at the head and is dequeued first. -/
theorem C1_dequeue_order_witness :
    (runQueue taggedComparator ⟨[]⟩ (tagOps 0
        [QOp.enq ⟨0, [1], LOW, 5, 0⟩, QOp.enq ⟨1, [2], HIGH, 9, 0⟩])).1.items =
      [(1, ⟨1, [2], HIGH, 9, 0⟩), (0, ⟨0, [1], LOW, 5, 0⟩)] ∧
    (runQueue taggedComparator ⟨[]⟩ (tagOps 0
        [QOp.enq ⟨0, [1], LOW, 5, 0⟩, QOp.enq ⟨1, [2], HIGH, 9, 0⟩])).1.dequeue =
      (some (1, ⟨1, [2], HIGH, 9, 0⟩), ⟨[(0, ⟨0, [1], LOW, 5, 0⟩)]⟩) ∧
    priorityOrder Priority.HIGH < priorityOrder Priority.LOW := by
  have hins : insertE (cmpLe taggedComparator)
      ((1 : Nat), (⟨1, [2], HIGH, 9, 0⟩ : QueueEntry))
      [((0 : Nat), (⟨0, [1], LOW, 5, 0⟩ : QueueEntry))] =
      [(1, ⟨1, [2], HIGH, 9, 0⟩), (0, ⟨0, [1], LOW, 5, 0⟩)] := by
    norm_num [insertE, cmpLe, taggedComparator, queueComparator, priorityOrder]
  have hitems : (runQueue taggedComparator ⟨[]⟩ (tagOps 0
      [QOp.enq ⟨0, [1], LOW, 5, 0⟩, QOp.enq ⟨1, [2], HIGH, 9, 0⟩])).1.items =
      [(1, ⟨1, [2], HIGH, 9, 0⟩), (0, ⟨0, [1], LOW, 5, 0⟩)] := by
    show (((⟨[]⟩ : PQueue TaggedEntry).enqueue taggedComparator
        (0, ⟨0, [1], LOW, 5, 0⟩)).enqueue taggedComparator
        (1, ⟨1, [2], HIGH, 9, 0⟩)).items = _
    rw [PQueue.enqueue_eq_mergeSort, PQueue.enqueue_eq_mergeSort]
    simp only [List.nil_append, List.mergeSort_singleton]
    rw [mergeSort_append_singleton cmpLe_taggedComparator_trans
      cmpLe_taggedComparator_total _ (List.pairwise_singleton _ _)]
    exact hins
  have h := ((C1_dequeue_order
      [QOp.enq ⟨0, [1], LOW, 5, 0⟩, QOp.enq ⟨1, [2], HIGH, 9, 0⟩,
        QOp.deq]).2.2.1)
      [QOp.enq ⟨0, [1], LOW, 5, 0⟩, QOp.enq ⟨1, [2], HIGH, 9, 0⟩]
      [QOp.deq] rfl 1 ⟨1, [2], HIGH, 9, 0⟩ [(0, ⟨0, [1], LOW, 5, 0⟩)]
      hitems
  refine ⟨hitems, h.1, ?_⟩
  have h2 := h.2 0 ⟨0, [1], LOW, 5, 0⟩ (List.mem_singleton.mpr rfl)
  rcases h2 with hlt | ⟨heq, -⟩
  · exact hlt
  · exact absurd heq (by decide)

/-- C10: (i) the comparator returns 0 on entries with equal priority and
equal `created_time`; (ii) since the sort used by `enqueue` is stable, any
instrumented run dequeues equal-key entries in arrival order; (iii) all
batches of a single submission are enqueued with the one shared priority
and the one shared `created_time`, in the order of their consecutive id
groups — hence they are dispatched in group order. -/
theorem C10_stable_fifo :
    (∀ a b : QueueEntry, a.priority = b.priority →
      a.created_time = b.created_time → queueComparator a b = 0) ∧
    (∀ ops : List (QOp QueueEntry),
      ((runQueue taggedComparator ⟨[]⟩ (tagOps 0 ops)).2.filterMap
        id).Pairwise
        (fun x y => queueComparator x.2 y.2 = 0 → x.1 < y.1)) ∧
    (∀ (st : SystemState) (req : IngestRequest) (now : Nat)
        (arr : List JsValue) (p : Priority),
      req.ids = some arr →
      ¬ (arr.length = 0 ∨ ¬ arr.all validId) →
      priorityOfString (req.priority.getD "LOW") = some p →
      ((postIngest st req now).1.queue.items.Perm
        (st.queue.items ++ batchEntries st.nextId p now (st.nextId + 1)
          (chunk3 (arr.map jsValueInt))) ∧
        ((batchEntries st.nextId p now (st.nextId + 1)
          (chunk3 (arr.map jsValueInt))).map QueueEntry.ids =
          chunk3 (arr.map jsValueInt)) ∧
        ∀ e ∈ batchEntries st.nextId p now (st.nextId + 1)
            (chunk3 (arr.map jsValueInt)),
          e.priority = p ∧ e.created_time = now)) := by
  refine ⟨?_, ?_, ?_⟩
  · intro a b hp ht
    rw [queueComparator_eq_zero_iff]
    exact ⟨by rw [hp], ht⟩
  · intro ops
    exact runQueue_fifo ops ⟨[]⟩ 0 List.Pairwise.nil (by simp)
  · intro st req now arr p hids hvalid hp
    rw [postIngest_of_valid hids hvalid hp]
    refine ⟨?_, batchEntries_ids _ _ _ _ _, ?_⟩
    · show ((createBatches st.nextId p now { st with nextId := st.nextId + 1 } (chunk3 (arr.map jsValueInt))).1).queue.items.Perm _
      exact createBatches_queue_perm st.nextId p now _ _
    · intro e he
      obtain ⟨h1, h2, -⟩ := batchEntries_fields st.nextId p now _ _ e he
      exact ⟨h1, h2⟩

/-- Witness for C10: equal-key comparator value and the shared fields of
the two batches of a concrete submission. -/
theorem C10_stable_fifo_witness :
    queueComparator ⟨1, [1, 2, 3], HIGH, 100, 0⟩ ⟨2, [4], HIGH, 100, 0⟩ = 0 ∧
    (∀ e ∈ batchEntries 0 HIGH 100 1
        (chunk3 (List.map jsValueInt
          [JsValue.int 1, JsValue.int 2, JsValue.int 3, JsValue.int 4])),
      e.priority = HIGH ∧ e.created_time = 100) := by
  obtain ⟨hcmp, -, hsub⟩ := C10_stable_fifo
  refine ⟨hcmp _ _ rfl rfl, ?_⟩
  have h := (hsub initialState
    ⟨some [JsValue.int 1, JsValue.int 2, JsValue.int 3, JsValue.int 4],
      some "HIGH"⟩ 100
    [JsValue.int 1, JsValue.int 2, JsValue.int 3, JsValue.int 4] HIGH
    (by decide) (by decide) (by decide)).2.2
  exact h

theorem triggerPhase_batchStatusOf_self (st : SystemState) (e : QueueEntry) :
    batchStatusOf (triggerPhase st e) e.batch_id = some triggered := by
  unfold triggerPhase batchStatusOf
  rw [updateIngestionStatus_batchStatuses]
  simp [mapGet_mapSet_self]

theorem triggerPhase_batchStatusOf_ne (st : SystemState) (e : QueueEntry)
    {b : Nat} (h : e.batch_id ≠ b) :
    batchStatusOf (triggerPhase st e) b = batchStatusOf st b := by
  unfold triggerPhase batchStatusOf
  rw [updateIngestionStatus_batchStatuses]
  simp [mapGet_mapSet_ne _ _ h]

theorem triggerPhase_queue (st : SystemState) (e : QueueEntry) :
    (triggerPhase st e).queue = st.queue := by
  unfold triggerPhase
  rw [updateIngestionStatus_queue]

theorem triggerPhase_nextId (st : SystemState) (e : QueueEntry) :
    (triggerPhase st e).nextId = st.nextId := by
  unfold triggerPhase
  rw [updateIngestionStatus_nextId]

theorem completePhase_batchStatusOf_self (st : SystemState) (e : QueueEntry)
    (now : Nat) :
    batchStatusOf (completePhase st e now) e.batch_id = some completed := by
  unfold completePhase batchStatusOf
  simp only [updateIngestionStatus_batchStatuses]
  simp [mapGet_mapSet_self]

theorem completePhase_batchStatusOf_ne (st : SystemState) (e : QueueEntry)
    (now : Nat) {b : Nat} (h : e.batch_id ≠ b) :
    batchStatusOf (completePhase st e now) b = batchStatusOf st b := by
  unfold completePhase batchStatusOf
  simp only [updateIngestionStatus_batchStatuses]
  simp [mapGet_mapSet_ne _ _ h]

theorem completePhase_queue (st : SystemState) (e : QueueEntry) (now : Nat) :
    (completePhase st e now).queue = st.queue :=
  updateIngestionStatus_queue
    { st with batchStatuses := mapSet st.batchStatuses e.batch_id ⟨e.batch_id, e.ids, completed⟩ }
    e.ingestion_id

theorem completePhase_nextId (st : SystemState) (e : QueueEntry) (now : Nat) :
    (completePhase st e now).nextId = st.nextId :=
  updateIngestionStatus_nextId
    { st with batchStatuses := mapSet st.batchStatuses e.batch_id ⟨e.batch_id, e.ids, completed⟩ }
    e.ingestion_id

theorem goodState_initial : GoodState initialRun := by
  refine ⟨fun b _ => rfl, ?_, ?_, ?_, ?_, ?_⟩ <;> simp [initialRun, initialState]

theorem batchEntries_exists_of_range (jid : Nat) (p : Priority) (t : Nat)
    (gs : List (List Int)) (n b : Nat) (h1 : n ≤ b) (h2 : b < n + gs.length) :
    ∃ e ∈ batchEntries jid p t n gs, e.batch_id = b := by
  have hb : b ∈ (batchEntries jid p t n gs).map QueueEntry.batch_id := by
    rw [batchEntries_batchIds]
    exact List.mem_range'_1.mpr ⟨h1, h2⟩
  obtain ⟨e, he, heq⟩ := List.mem_map.mp hb
  exact ⟨e, he, heq⟩

/-- Either the handler rejects (state unchanged) or it commits the state
produced by the batching loop plus the job insertion. -/
theorem postIngest_state_cases (st : SystemState) (req : IngestRequest)
    (now : Nat) :
    (postIngest st req now).1 = st ∨
    ∃ (arr : List JsValue) (p : Priority),
      req.ids = some arr ∧
      (postIngest st req now).1 =
        { (createBatches st.nextId p now { st with nextId := st.nextId + 1 } (chunk3 (arr.map jsValueInt))).1 with
          ingestionJobs := mapSet (createBatches st.nextId p now { st with nextId := st.nextId + 1 } (chunk3 (arr.map jsValueInt))).1.ingestionJobs st.nextId ⟨st.nextId, yet_to_start, (createBatches st.nextId p now { st with nextId := st.nextId + 1 } (chunk3 (arr.map jsValueInt))).2, p, now⟩ } := by
  cases hids : req.ids with
  | none =>
    left
    unfold postIngest
    rw [hids]
  | some arr =>
    by_cases hval : arr.length = 0 ∨ ¬ arr.all validId
    · left
      unfold postIngest
      rw [hids]
      simp only [if_pos hval]
    · cases hp : priorityOfString (req.priority.getD "LOW") with
      | none =>
        left
        unfold postIngest
        rw [hids]
        simp only [if_neg hval, hp]
      | some p =>
        right
        exact ⟨arr, p, rfl, by rw [postIngest_of_valid hids hval hp]⟩

/-- The invariant survives an ingest step. -/
theorem goodState_ingest (s : RunState) (h : GoodState s)
    (req : IngestRequest) (now : Nat) :
    GoodState (stepOp s (SysOp.ingest req now)) := by
  obtain ⟨hI1, hQb, hFb, hND, hQs, hFs⟩ := h
  show GoodState ⟨(postIngest s.sys req now).1, s.inFlight⟩
  rcases postIngest_state_cases s.sys req now with hsame | ⟨arr, p, hids, heq⟩
  · rw [hsame]
    exact ⟨hI1, hQb, hFb, hND, hQs, hFs⟩
  · rw [heq]
    have hnext : (createBatches s.sys.nextId p now { s.sys with nextId := s.sys.nextId + 1 } (chunk3 (arr.map jsValueInt))).1.nextId = s.sys.nextId + 1 + (chunk3 (arr.map jsValueInt)).length := by
      rw [createBatches_nextId]
    have hperm : (createBatches s.sys.nextId p now { s.sys with nextId := s.sys.nextId + 1 } (chunk3 (arr.map jsValueInt))).1.queue.items.Perm
        (s.sys.queue.items ++ batchEntries s.sys.nextId p now (s.sys.nextId + 1) (chunk3 (arr.map jsValueInt))) :=
      createBatches_queue_perm s.sys.nextId p now _ _
    refine ⟨?_, ?_, ?_, ?_, ?_, ?_⟩
    · intro b hb
      have hb' : (createBatches s.sys.nextId p now { s.sys with nextId := s.sys.nextId + 1 } (chunk3 (arr.map jsValueInt))).1.nextId ≤ b := hb
      rw [hnext] at hb'
      show mapGet (createBatches s.sys.nextId p now { s.sys with nextId := s.sys.nextId + 1 } (chunk3 (arr.map jsValueInt))).1.batchStatuses b = none
      rw [createBatches_batchStatuses_old s.sys.nextId p now _ _ b
        (Or.inr (show s.sys.nextId + 1 + (chunk3 (arr.map jsValueInt)).length ≤ b from by omega))]
      exact hI1 b (by omega)
    · intro e he
      have he' : e ∈ (createBatches s.sys.nextId p now { s.sys with nextId := s.sys.nextId + 1 } (chunk3 (arr.map jsValueInt))).1.queue.items := he
      show e.batch_id < (createBatches s.sys.nextId p now { s.sys with nextId := s.sys.nextId + 1 } (chunk3 (arr.map jsValueInt))).1.nextId
      rw [hnext]
      rcases List.mem_append.mp ((hperm.mem_iff).mp he') with hold | hnew
      · have := hQb e hold
        omega
      · have := (batchEntries_fields s.sys.nextId p now _ _ e hnew).2.2.2.2
        omega
    · intro e he
      show e.batch_id < (createBatches s.sys.nextId p now { s.sys with nextId := s.sys.nextId + 1 } (chunk3 (arr.map jsValueInt))).1.nextId
      have := hFb e he
      rw [hnext]
      omega
    · show (((createBatches s.sys.nextId p now { s.sys with nextId := s.sys.nextId + 1 } (chunk3 (arr.map jsValueInt))).1.queue.items.map QueueEntry.batch_id) ++ s.inFlight.map QueueEntry.batch_id).Nodup
      have hmap : (((createBatches s.sys.nextId p now { s.sys with nextId := s.sys.nextId + 1 } (chunk3 (arr.map jsValueInt))).1.queue.items.map QueueEntry.batch_id) ++ s.inFlight.map QueueEntry.batch_id).Perm
          ((s.sys.queue.items.map QueueEntry.batch_id ++
            List.range' (s.sys.nextId + 1) (chunk3 (arr.map jsValueInt)).length) ++
            s.inFlight.map QueueEntry.batch_id) := by
        refine List.Perm.append_right _ ?_
        have hp2 := hperm.map QueueEntry.batch_id
        rw [List.map_append, batchEntries_batchIds] at hp2
        exact hp2
      refine hmap.nodup_iff.mpr ?_
      have hswap : ((s.sys.queue.items.map QueueEntry.batch_id ++
          List.range' (s.sys.nextId + 1) (chunk3 (arr.map jsValueInt)).length) ++
          s.inFlight.map QueueEntry.batch_id).Perm
          ((s.sys.queue.items.map QueueEntry.batch_id ++
            s.inFlight.map QueueEntry.batch_id) ++
            List.range' (s.sys.nextId + 1) (chunk3 (arr.map jsValueInt)).length) := by
        rw [List.append_assoc, List.append_assoc]
        exact List.Perm.append_left _ List.perm_append_comm
      refine hswap.nodup_iff.mpr ?_
      rw [List.nodup_append]
      refine ⟨hND, List.nodup_range' _ _ 1 (by omega), ?_⟩
      intro x hx hx'
      have hxlt : x < s.sys.nextId := by
        rcases List.mem_append.mp hx with hq | hf
        · obtain ⟨e, he, rfl⟩ := List.mem_map.mp hq
          exact hQb e he
        · obtain ⟨e, he, rfl⟩ := List.mem_map.mp hf
          exact hFb e he
      have := List.mem_range'_1.mp hx'
      omega
    · intro e he
      have he' : e ∈ (createBatches s.sys.nextId p now { s.sys with nextId := s.sys.nextId + 1 } (chunk3 (arr.map jsValueInt))).1.queue.items := he
      show (mapGet (createBatches s.sys.nextId p now { s.sys with nextId := s.sys.nextId + 1 } (chunk3 (arr.map jsValueInt))).1.batchStatuses e.batch_id).map BatchRecord.status = some yet_to_start
      rcases List.mem_append.mp ((hperm.mem_iff).mp he') with hold | hnew
      · have hlt := hQb e hold
        rw [createBatches_batchStatuses_old s.sys.nextId p now _ _ e.batch_id
          (Or.inl (show e.batch_id < s.sys.nextId + 1 from by omega))]
        exact hQs e hold
      · rw [createBatches_batchStatuses_new s.sys.nextId p now _ _ e hnew]
        rfl
    · intro e he
      have hlt := hFb e he
      show (mapGet (createBatches s.sys.nextId p now { s.sys with nextId := s.sys.nextId + 1 } (chunk3 (arr.map jsValueInt))).1.batchStatuses e.batch_id).map BatchRecord.status = some triggered
      rw [createBatches_batchStatuses_old s.sys.nextId p now _ _ e.batch_id
        (Or.inl (show e.batch_id < s.sys.nextId + 1 from by omega))]
      exact hFs e he

theorem triggerPhase_batchStatuses (st : SystemState) (e : QueueEntry) :
    (triggerPhase st e).batchStatuses =
      mapSet st.batchStatuses e.batch_id ⟨e.batch_id, e.ids, triggered⟩ := by
  unfold triggerPhase
  rw [updateIngestionStatus_batchStatuses]

theorem completePhase_batchStatuses (st : SystemState) (e : QueueEntry)
    (now : Nat) :
    (completePhase st e now).batchStatuses =
      mapSet st.batchStatuses e.batch_id ⟨e.batch_id, e.ids, completed⟩ := by
  unfold completePhase
  show (updateIngestionStatus _ _).batchStatuses = _
  rw [updateIngestionStatus_batchStatuses]

theorem stepOp_trigger_nil (s : RunState) (hq : s.sys.queue.items = []) :
    stepOp s SysOp.trigger = s := by
  unfold stepOp
  rw [hq]

theorem stepOp_trigger_cons (s : RunState) (e : QueueEntry)
    (rest : List QueueEntry) (hq : s.sys.queue.items = e :: rest) :
    stepOp s SysOp.trigger =
      ⟨triggerPhase { s.sys with queue := ⟨rest⟩ } e, e :: s.inFlight⟩ := by
  unfold stepOp
  rw [hq]

/-- The invariant survives a trigger step. -/
theorem goodState_trigger (s : RunState) (h : GoodState s) :
    GoodState (stepOp s SysOp.trigger) := by
  obtain ⟨hI1, hQb, hFb, hND, hQs, hFs⟩ := h
  cases hq : s.sys.queue.items with
  | nil =>
    rw [stepOp_trigger_nil s hq]
    exact ⟨hI1, hQb, hFb, hND, hQs, hFs⟩
  | cons e rest =>
    rw [stepOp_trigger_cons s e rest hq]
    rw [hq] at hND
    have hND' : (e.batch_id :: (rest.map QueueEntry.batch_id ++
        s.inFlight.map QueueEntry.batch_id)).Nodup := by
      simpa using hND
    have heQ : e ∈ s.sys.queue.items := by rw [hq]; exact List.mem_cons_self _ _
    have henotin : e.batch_id ∉ rest.map QueueEntry.batch_id ++
        s.inFlight.map QueueEntry.batch_id := (List.nodup_cons.mp hND').1
    refine ⟨?_, ?_, ?_, ?_, ?_, ?_⟩
    · intro b hb
      have hb' : s.sys.nextId ≤ b := by
        have hb0 : (triggerPhase { s.sys with queue := ⟨rest⟩ } e).nextId ≤ b := hb
        rw [triggerPhase_nextId] at hb0
        exact hb0
      show mapGet (triggerPhase { s.sys with queue := ⟨rest⟩ } e).batchStatuses b = none
      rw [triggerPhase_batchStatuses]
      rw [mapGet_mapSet_ne _ _ (by have := hQb e heQ; omega : e.batch_id ≠ b)]
      exact hI1 b hb'
    · intro x hx
      have hx' : x ∈ rest := by
        rw [show (triggerPhase { s.sys with queue := ⟨rest⟩ } e).queue =
          (⟨rest⟩ : PQueue QueueEntry) from triggerPhase_queue _ e] at hx
        exact hx
      show x.batch_id < (triggerPhase { s.sys with queue := ⟨rest⟩ } e).nextId
      rw [triggerPhase_nextId]
      exact hQb x (by rw [hq]; exact List.mem_cons_of_mem e hx')
    · intro x hx
      show x.batch_id < (triggerPhase { s.sys with queue := ⟨rest⟩ } e).nextId
      rw [triggerPhase_nextId]
      rcases List.mem_cons.mp hx with rfl | hx'
      · exact hQb x heQ
      · exact hFb x hx'
    · show ((((triggerPhase { s.sys with queue := ⟨rest⟩ } e).queue).items.map
          QueueEntry.batch_id) ++
        ((e :: s.inFlight).map QueueEntry.batch_id)).Nodup
      rw [show ((triggerPhase { s.sys with queue := ⟨rest⟩ } e).queue) =
        (⟨rest⟩ : PQueue QueueEntry) from triggerPhase_queue _ e]
      show ((rest.map QueueEntry.batch_id) ++
        (e.batch_id :: s.inFlight.map QueueEntry.batch_id)).Nodup
      exact (List.perm_middle.nodup_iff).mpr hND'
    · intro x hx
      have hx' : x ∈ rest := by
        rw [show (triggerPhase { s.sys with queue := ⟨rest⟩ } e).queue =
          (⟨rest⟩ : PQueue QueueEntry) from triggerPhase_queue _ e] at hx
        exact hx
      have hne : e.batch_id ≠ x.batch_id := by
        intro hc
        exact henotin (List.mem_append_left _ (hc ▸ List.mem_map_of_mem _ hx'))
      show batchStatusOf (triggerPhase { s.sys with queue := ⟨rest⟩ } e)
        x.batch_id = some yet_to_start
      rw [triggerPhase_batchStatusOf_ne _ e hne]
      exact hQs x (by rw [hq]; exact List.mem_cons_of_mem e hx')
    · intro x hx
      rcases List.mem_cons.mp hx with rfl | hx'
      · show batchStatusOf (triggerPhase { s.sys with queue := ⟨rest⟩ } x)
          x.batch_id = some triggered
        exact triggerPhase_batchStatusOf_self _ x
      · have hne : e.batch_id ≠ x.batch_id := by
          intro hc
          exact henotin (List.mem_append_right _ (hc ▸ List.mem_map_of_mem _ hx'))
        show batchStatusOf (triggerPhase { s.sys with queue := ⟨rest⟩ } e)
          x.batch_id = some triggered
        rw [triggerPhase_batchStatusOf_ne _ e hne]
        exact hFs x hx'

theorem stepOp_complete_mem (s : RunState) (e : QueueEntry) (now : Nat)
    (hin : e ∈ s.inFlight) :
    stepOp s (SysOp.complete e now) =
      ⟨completePhase s.sys e now, s.inFlight.erase e⟩ := by
  simp only [stepOp]
  rw [if_pos hin]

theorem stepOp_complete_not_mem (s : RunState) (e : QueueEntry) (now : Nat)
    (hin : e ∉ s.inFlight) :
    stepOp s (SysOp.complete e now) = s := by
  simp only [stepOp]
  rw [if_neg hin]

/-- The invariant survives a complete step. -/
theorem goodState_complete (s : RunState) (h : GoodState s) (e : QueueEntry)
    (now : Nat) : GoodState (stepOp s (SysOp.complete e now)) := by
  obtain ⟨hI1, hQb, hFb, hND, hQs, hFs⟩ := h
  by_cases hin : e ∈ s.inFlight
  · rw [stepOp_complete_mem s e now hin]
    have hflND : (s.inFlight.map QueueEntry.batch_id).Nodup :=
      hND.of_append_right
    have hflNodup : s.inFlight.Nodup := hflND.of_map _
    have hdisj : (s.sys.queue.items.map QueueEntry.batch_id).Disjoint
        (s.inFlight.map QueueEntry.batch_id) :=
      List.disjoint_of_nodup_append hND
    refine ⟨?_, ?_, ?_, ?_, ?_, ?_⟩
    · intro b hb
      have hb' : s.sys.nextId ≤ b := by
        have hb0 : (completePhase s.sys e now).nextId ≤ b := hb
        rw [completePhase_nextId] at hb0
        exact hb0
      show mapGet (completePhase s.sys e now).batchStatuses b = none
      rw [completePhase_batchStatuses]
      rw [mapGet_mapSet_ne _ _ (by have := hFb e hin; omega : e.batch_id ≠ b)]
      exact hI1 b hb'
    · intro x hx
      have hx' : x ∈ s.sys.queue.items := by
        rw [show (completePhase s.sys e now).queue = s.sys.queue from
          completePhase_queue _ e now] at hx
        exact hx
      show x.batch_id < (completePhase s.sys e now).nextId
      rw [completePhase_nextId]
      exact hQb x hx'
    · intro x hx
      show x.batch_id < (completePhase s.sys e now).nextId
      rw [completePhase_nextId]
      exact hFb x (List.mem_of_mem_erase hx)
    · show ((((completePhase s.sys e now).queue).items.map
          QueueEntry.batch_id) ++
        ((s.inFlight.erase e).map QueueEntry.batch_id)).Nodup
      rw [show (completePhase s.sys e now).queue = s.sys.queue from
        completePhase_queue _ e now]
      refine List.Nodup.sublist ?_ hND
      exact ((s.inFlight.erase_sublist e).map _).append_left _
    · intro x hx
      have hx' : x ∈ s.sys.queue.items := by
        rw [show (completePhase s.sys e now).queue = s.sys.queue from
          completePhase_queue _ e now] at hx
        exact hx
      have hne : e.batch_id ≠ x.batch_id := by
        intro hc
        exact hdisj (List.mem_map_of_mem _ hx')
          (hc ▸ List.mem_map_of_mem _ hin)
      show batchStatusOf (completePhase s.sys e now) x.batch_id =
        some yet_to_start
      rw [completePhase_batchStatusOf_ne _ e now hne]
      exact hQs x hx'
    · intro x hx
      have hxe : x ≠ e ∧ x ∈ s.inFlight := (hflNodup.mem_erase_iff).mp hx
      have hne : e.batch_id ≠ x.batch_id := by
        intro hc
        exact hxe.1 (List.inj_on_of_nodup_map hflND hxe.2 hin hc.symm)
      show batchStatusOf (completePhase s.sys e now) x.batch_id =
        some triggered
      rw [completePhase_batchStatusOf_ne _ e now hne]
      exact hFs x hxe.2
  · rw [stepOp_complete_not_mem s e now hin]
    exact ⟨hI1, hQb, hFb, hND, hQs, hFs⟩

/-- The invariant survives every step. -/
theorem goodState_step (s : RunState) (h : GoodState s) (op : SysOp) :
    GoodState (stepOp s op) := by
  cases op with
  | ingest req now => exact goodState_ingest s h req now
  | trigger => exact goodState_trigger s h
  | complete e now => exact goodState_complete s h e now

/-- Every reachable state satisfies the invariant. -/
theorem goodState_runOps (ops : List SysOp) : GoodState (runOps ops) := by
  have key : ∀ (l : List SysOp) (s : RunState), GoodState s →
      GoodState (l.foldl stepOp s) := by
    intro l
    induction l with
    | nil => intro s hs; exact hs
    | cons op l ih =>
      intro s hs
      exact ih (stepOp s op) (goodState_step s hs op)
  exact key ops initialRun goodState_initial

/-- Effect of one step on one batch status, at a state satisfying the
invariant: an existing status can only advance along
`yet_to_start → triggered → completed` (and is never deleted), a batch that
appears was created `yet_to_start`, and an ingest step never changes an
existing batch status. -/
theorem stepOp_status_mono (s : RunState) (hG : GoodState s) (op : SysOp)
    (b : Nat) :
    (∀ σ, batchStatusOf s.sys b = some σ →
      ∃ σ', batchStatusOf (stepOp s op).sys b = some σ' ∧
        statusRank σ ≤ statusRank σ') ∧
    (batchStatusOf s.sys b = none →
      ∀ σ', batchStatusOf (stepOp s op).sys b = some σ' →
        σ' = yet_to_start) ∧
    (∀ req now σ, op = SysOp.ingest req now →
      batchStatusOf s.sys b = some σ →
      batchStatusOf (stepOp s op).sys b = some σ) := by
  obtain ⟨hI1, hQb, hFb, hND, hQs, hFs⟩ := hG
  cases op with
  | ingest req now =>
    have hpres : ∀ σ, batchStatusOf s.sys b = some σ →
        batchStatusOf (stepOp s (SysOp.ingest req now)).sys b = some σ := by
      intro σ hσ
      have hblt : b < s.sys.nextId := by
        by_contra hc
        rw [batchStatusOf, hI1 b (by omega)] at hσ
        exact Option.noConfusion hσ
      show batchStatusOf (postIngest s.sys req now).1 b = some σ
      rcases postIngest_state_cases s.sys req now with hsame | ⟨arr, p, -, heq⟩
      · rw [hsame]; exact hσ
      · rw [heq]
        show (mapGet (createBatches s.sys.nextId p now { s.sys with nextId := s.sys.nextId + 1 } (chunk3 (arr.map jsValueInt))).1.batchStatuses b).map BatchRecord.status = some σ
        rw [createBatches_batchStatuses_old s.sys.nextId p now _ _ b
          (Or.inl (show b < s.sys.nextId + 1 from by omega))]
        exact hσ
    refine ⟨fun σ hσ => ⟨σ, hpres σ hσ, Nat.le_refl _⟩, ?_,
      fun req' now' σ hop hσ => by
        injection hop with h1 h2
        subst h1; subst h2
        exact hpres σ hσ⟩
    intro hnone σ' hσ'
    show σ' = yet_to_start
    rcases postIngest_state_cases s.sys req now with hsame | ⟨arr, p, -, heq⟩
    · rw [show (stepOp s (SysOp.ingest req now)).sys =
        (postIngest s.sys req now).1 from rfl, hsame] at hσ'
      rw [hnone] at hσ'
      exact Option.noConfusion hσ'
    · have hσ'' : (mapGet (createBatches s.sys.nextId p now { s.sys with nextId := s.sys.nextId + 1 } (chunk3 (arr.map jsValueInt))).1.batchStatuses b).map BatchRecord.status = some σ' := by
        rw [show (stepOp s (SysOp.ingest req now)).sys =
          (postIngest s.sys req now).1 from rfl, heq] at hσ'
        exact hσ'
      by_cases hlow : b < s.sys.nextId + 1
      · rw [createBatches_batchStatuses_old s.sys.nextId p now _ _ b
          (Or.inl hlow)] at hσ''
        have hnone' : (mapGet s.sys.batchStatuses b).map BatchRecord.status =
            none := hnone
        rw [hnone'] at hσ''
        exact Option.noConfusion hσ''
      · by_cases hhigh : b < s.sys.nextId + 1 + (chunk3 (arr.map jsValueInt)).length
        · obtain ⟨e, he, heb⟩ := batchEntries_exists_of_range s.sys.nextId p
            now (chunk3 (arr.map jsValueInt)) (s.sys.nextId + 1) b
            (by omega) hhigh
          rw [← heb] at hσ''
          rw [createBatches_batchStatuses_new s.sys.nextId p now _ _ e he]
            at hσ''
          simp only [Option.map_some'] at hσ''
          injection hσ'' with hσ''
          exact hσ''.symm
        · rw [createBatches_batchStatuses_old s.sys.nextId p now _ _ b
            (Or.inr (show s.sys.nextId + 1 + (chunk3 (arr.map jsValueInt)).length ≤ b from by omega))] at hσ''
          rw [show mapGet s.sys.batchStatuses b = none from
            hI1 b (by omega)] at hσ''
          exact Option.noConfusion hσ''
  | trigger =>
    cases hq : s.sys.queue.items with
    | nil =>
      rw [stepOp_trigger_nil s hq]
      exact ⟨fun σ hσ => ⟨σ, hσ, Nat.le_refl _⟩,
        fun hnone σ' hσ' => by rw [hnone] at hσ'; exact Option.noConfusion hσ',
        fun req' now' σ hop => SysOp.noConfusion hop⟩
    | cons e rest =>
      rw [stepOp_trigger_cons s e rest hq]
      have heQ : e ∈ s.sys.queue.items := by
        rw [hq]; exact List.mem_cons_self _ _
      by_cases hb : e.batch_id = b
      · subst hb
        have hself : batchStatusOf
            (triggerPhase { s.sys with queue := ⟨rest⟩ } e) e.batch_id =
            some triggered := triggerPhase_batchStatusOf_self _ e
        refine ⟨fun σ hσ => ?_, fun hnone σ' hσ' => ?_,
          fun req' now' σ hop => SysOp.noConfusion hop⟩
        · have : σ = yet_to_start := by
            have h0 := hQs e heQ
            rw [hσ] at h0
            injection h0 with h0
          subst this
          exact ⟨triggered, hself, by simp [statusRank]⟩
        · rw [hQs e heQ] at hnone
          exact Option.noConfusion hnone
      · have hne : batchStatusOf
            (triggerPhase { s.sys with queue := ⟨rest⟩ } e) b =
            batchStatusOf s.sys b := triggerPhase_batchStatusOf_ne _ e hb
        refine ⟨fun σ hσ => ⟨σ, ?_, Nat.le_refl _⟩,
          fun hnone σ' hσ' => ?_,
          fun req' now' σ hop => SysOp.noConfusion hop⟩
        · show batchStatusOf (triggerPhase { s.sys with queue := ⟨rest⟩ } e) b =
            some σ
          rw [hne]
          exact hσ
        · have hσ'' : batchStatusOf
              (triggerPhase { s.sys with queue := ⟨rest⟩ } e) b = some σ' := hσ'
          rw [hne, hnone] at hσ''
          exact Option.noConfusion hσ''
  | complete e now =>
    by_cases hin : e ∈ s.inFlight
    · rw [stepOp_complete_mem s e now hin]
      by_cases hb : e.batch_id = b
      · subst hb
        have hself : batchStatusOf (completePhase s.sys e now) e.batch_id =
            some completed := completePhase_batchStatusOf_self _ e now
        refine ⟨fun σ hσ => ?_, fun hnone σ' hσ' => ?_,
          fun req' now' σ hop => SysOp.noConfusion hop⟩
        · have : σ = triggered := by
            have h0 := hFs e hin
            rw [hσ] at h0
            injection h0 with h0
          subst this
          exact ⟨completed, hself, by simp [statusRank]⟩
        · rw [hFs e hin] at hnone
          exact Option.noConfusion hnone
      · have hne : batchStatusOf (completePhase s.sys e now) b =
            batchStatusOf s.sys b := completePhase_batchStatusOf_ne _ e now hb
        refine ⟨fun σ hσ => ⟨σ, ?_, Nat.le_refl _⟩,
          fun hnone σ' hσ' => ?_,
          fun req' now' σ hop => SysOp.noConfusion hop⟩
        · show batchStatusOf (completePhase s.sys e now) b = some σ
          rw [hne]
          exact hσ
        · have hσ'' : batchStatusOf (completePhase s.sys e now) b = some σ' :=
            hσ'
          rw [hne, hnone] at hσ''
          exact Option.noConfusion hσ''
    · rw [stepOp_complete_not_mem s e now hin]
      exact ⟨fun σ hσ => ⟨σ, hσ, Nat.le_refl _⟩,
        fun hnone σ' hσ' => by rw [hnone] at hσ'; exact Option.noConfusion hσ',
        fun req' now' σ hop => SysOp.noConfusion hop⟩

theorem PQueue.enqueue_empty (comparator : α → α → Int) (x : α) :
    (⟨[]⟩ : PQueue α).enqueue comparator x = ⟨[x]⟩ := by
  have h : ((⟨[]⟩ : PQueue α).enqueue comparator x).items = [x] := by
    rw [PQueue.enqueue_eq_mergeSort]
    simp
  exact congrArg PQueue.mk h

/-- C3: along every reachable operation sequence, a batch status only
advances along `yet_to_start → triggered → completed`: an existing status
never regresses (and is never deleted), a batch that first appears is
`yet_to_start`, and the ingest handler (the only non-dispatcher mutation)
never changes an existing batch status. -/
theorem C3_batch_status_monotonic (ops : List SysOp) (op : SysOp) :
    (∀ b σ σ', batchStatusOf (runOps ops).sys b = some σ →
      batchStatusOf (stepOp (runOps ops) op).sys b = some σ' →
      statusRank σ ≤ statusRank σ') ∧
    (∀ b σ, batchStatusOf (runOps ops).sys b = some σ →
      ∃ σ', batchStatusOf (stepOp (runOps ops) op).sys b = some σ' ∧
        statusRank σ ≤ statusRank σ') ∧
    (∀ b σ', batchStatusOf (runOps ops).sys b = none →
      batchStatusOf (stepOp (runOps ops) op).sys b = some σ' →
      σ' = yet_to_start) ∧
    (∀ req now b σ, batchStatusOf (runOps ops).sys b = some σ →
      batchStatusOf (stepOp (runOps ops) (SysOp.ingest req now)).sys b =
        some σ) := by
  have hG := goodState_runOps ops
  refine ⟨?_, ?_, ?_, ?_⟩
  · intro b σ σ' hσ hσ'
    obtain ⟨σ'', hσ'', hrank⟩ :=
      (stepOp_status_mono (runOps ops) hG op b).1 σ hσ
    rw [hσ'] at hσ''
    injection hσ'' with h0
    rw [h0]
    exact hrank
  · exact fun b σ hσ => (stepOp_status_mono (runOps ops) hG op b).1 σ hσ
  · exact fun b σ' hnone hσ' =>
      (stepOp_status_mono (runOps ops) hG op b).2.1 hnone σ' hσ'
  · exact fun req now b σ hσ =>
      (stepOp_status_mono (runOps ops) hG (SysOp.ingest req now) b).2.2
        req now σ rfl hσ

/-- Witness for C3 at a concrete run: batch `1` is `triggered` after
ingest + trigger and `completed` after the complete step, and the rank
only advances. -/
theorem C3_batch_status_monotonic_witness :
    batchStatusOf (runOps [SysOp.ingest c3Req 100, SysOp.trigger]).sys 1 =
      some triggered ∧
    batchStatusOf (stepOp (runOps [SysOp.ingest c3Req 100, SysOp.trigger])
      (SysOp.complete c3Entry 200)).sys 1 = some completed ∧
    statusRank triggered ≤ statusRank completed := by
  have hc : chunk3 (List.map jsValueInt [JsValue.int 5]) = [[5]] := by
    simp [chunk3, BATCH_SIZE, jsValueInt]
  have h1 : (postIngest initialState c3Req 100).1 = c3StateA := by
    rw [postIngest_of_valid (rfl : c3Req.ids = some [JsValue.int 5])
      (by decide) (by decide : priorityOfString (c3Req.priority.getD "LOW") = some LOW)]
    show ({ (createBatches 0 LOW 100 { initialState with nextId := 1 } (chunk3 (List.map jsValueInt [JsValue.int 5]))).1 with ingestionJobs := mapSet (createBatches 0 LOW 100 { initialState with nextId := 1 } (chunk3 (List.map jsValueInt [JsValue.int 5]))).1.ingestionJobs 0 ⟨0, yet_to_start, (createBatches 0 LOW 100 { initialState with nextId := 1 } (chunk3 (List.map jsValueInt [JsValue.int 5]))).2, LOW, 100⟩ } : SystemState) = c3StateA
    rw [hc]
    simp only [createBatches]
    rw [show initialState.queue = (⟨[]⟩ : PQueue QueueEntry) from rfl]
    rw [PQueue.enqueue_empty]
    decide
  have h2 : runOps [SysOp.ingest c3Req 100, SysOp.trigger] = c3RunB := by
    show stepOp (stepOp initialRun (SysOp.ingest c3Req 100)) SysOp.trigger =
      c3RunB
    have hA : stepOp initialRun (SysOp.ingest c3Req 100) = ⟨c3StateA, []⟩ := by
      show (⟨(postIngest initialState c3Req 100).1, []⟩ : RunState) = _
      rw [h1]
    rw [hA, stepOp_trigger_cons ⟨c3StateA, []⟩ c3Entry [] rfl]
    decide
  have hbefore : batchStatusOf c3RunB.sys 1 = some triggered := by decide
  have hafter : batchStatusOf (stepOp c3RunB (SysOp.complete c3Entry 200)).sys
      1 = some completed := by decide
  have hrank := (C3_batch_status_monotonic
    [SysOp.ingest c3Req 100, SysOp.trigger] (SysOp.complete c3Entry 200)).1
    1 triggered completed (by rw [h2]; exact hbefore)
    (by rw [h2]; exact hafter)
  exact ⟨by rw [h2]; exact hbefore, by rw [h2]; exact hafter, hrank⟩
